import Mathlib

/-!
# Verification of the ipv4-heatmap core pipeline

Shallow embedding of the Rust sources (`src/hilbert.rs`, `src/lib.rs`,
`src/scale.rs`, `src/wasm.rs`) of the ipv4-heatmap renderer, together with
proofs of the specified properties.

Modelling conventions:
* Rust machine integers (`u32`, `u64`, `i32`, `u8`) are modelled as `Nat`/`Int`;
  wrap-around is written out explicitly (`% 2^w`) at the few places where a
  narrowing cast occurs in the source.  All other arithmetic in the embedded
  code paths is overflow-free (this is argued at the corresponding lemmas).
* `f64` values are modelled by their exact numeric value.  Every float that
  occurs in the embedded code paths is an integer, so the only possible
  rounding is the round-to-nearest-even performed when a product exceeds 53
  significant bits; this rounding is modelled exactly by `f64round` below.
* Fallible operations return `Option`/`Except`.
-/

set_option autoImplicit false

namespace IpHeatmap

/-! ## `src/hilbert.rs` — the Hilbert distance-to-point transform

The Rust loop body of `hilbert_d2xy`.  `s` is the current sub-square side and
`t` the remaining distance; the two least significant bits of `t` select the
quadrant.  Mirrors lines 13–29 of `src/hilbert.rs`. -/
def hilbertStep (p : Nat × Nat) (s t : Nat) : Nat × Nat :=
  let rx := (t >>> 1) &&& 1
  let ry := (t ^^^ rx) &&& 1
  let p1 :=
    if ry = 0 then
      (if rx = 1 then (s - 1 - p.2, s - 1 - p.1) else (p.2, p.1))
    else p
  (p1.1 + s * rx, p1.2 + s * ry)

/-- The `while s < n` loop of `hilbert_d2xy`.  Starting from `s = 1` the side
doubles each round, so for `n = 2^order` the loop runs exactly `order` times;
the fuel argument counts the remaining iterations. -/
def hilbertLoop : Nat → Nat × Nat → Nat → Nat → Nat × Nat
  | 0, p, _, _ => p
  | k + 1, p, s, t => hilbertLoop k (hilbertStep p s t) (2 * s) (t >>> 2)

/-- `hilbert_d2xy` from `src/hilbert.rs`: distance `d` and curve `order` to a
point.  The source returns `Option<(u32, u32)>` and never returns `None`. -/
def hilbert_d2xy (d : Nat) (order : Nat) : Option (Nat × Nat) :=
  if order = 0 then some (0, 0)
  else some (hilbertLoop order (0, 0) 1 d)

/-- The point computed by the loop of `hilbert_d2xy` (also correct for
`order = 0`, where the loop body is never entered). -/
def hilbertPoint (order : Nat) (d : Nat) : Nat × Nat :=
  hilbertLoop order (0, 0) 1 d

theorem hilbert_d2xy_eq_point (d order : Nat) :
    hilbert_d2xy d order = some (hilbertPoint order d) := by
  unfold hilbert_d2xy hilbertPoint
  split
  · next h => subst h; rfl
  · rfl

/-! ### Evaluating the loop body on each of the four quadrant selectors -/

theorem hilbertStep_zero (p : Nat × Nat) (s : Nat) :
    hilbertStep p s 0 = (p.2, p.1) := by
  simp [hilbertStep]

theorem hilbertStep_one (p : Nat × Nat) (s : Nat) :
    hilbertStep p s 1 = (p.1, p.2 + s) := by
  simp [hilbertStep]

theorem hilbertStep_two (p : Nat × Nat) (s : Nat) :
    hilbertStep p s 2 = (p.1 + s, p.2 + s) := by
  simp [hilbertStep]

theorem hilbertStep_three (p : Nat × Nat) (s : Nat) :
    hilbertStep p s 3 = (s - 1 - p.2 + s, s - 1 - p.1) := by
  simp [hilbertStep]

/-- The loop body only reads the two least significant bits of `t`. -/
theorem hilbertStep_mod_four (p : Nat × Nat) (s t : Nat) :
    hilbertStep p s (t % 4) = hilbertStep p s t := by
  have hrx : (t % 4) >>> 1 &&& 1 = t >>> 1 &&& 1 := by
    simp only [Nat.shiftRight_eq_div_pow, Nat.and_one_is_mod, pow_one]
    have h4 : (4 : Nat) = 2 * 2 := by norm_num
    rw [h4, Nat.mod_mul_right_div_self, Nat.mod_mod_of_dvd _ (by norm_num)]
  have hand : (t % 4) &&& 1 = t &&& 1 := by
    simp only [Nat.and_one_is_mod]
    exact Nat.mod_mod_of_dvd _ (by norm_num)
  unfold hilbertStep
  rw [hrx]
  have hry : ∀ r : Nat, ((t % 4) ^^^ r) &&& 1 = (t ^^^ r) &&& 1 := by
    intro r
    rw [Nat.and_xor_distrib_right, Nat.and_xor_distrib_right, hand]
  simp only [hry]

theorem hilbertStep_rx_le (t : Nat) : (t >>> 1) &&& 1 ≤ 1 :=
  Nat.and_le_right

theorem hilbertStep_ry_le (t r : Nat) : (t ^^^ r) &&& 1 ≤ 1 :=
  Nat.and_le_right

/-- One loop iteration keeps the coordinates inside the doubled sub-square. -/
theorem hilbertStep_lt (p : Nat × Nat) (s t : Nat)
    (hx : p.1 < s) (hy : p.2 < s) :
    (hilbertStep p s t).1 < 2 * s ∧ (hilbertStep p s t).2 < 2 * s := by
  have hrx := hilbertStep_rx_le t
  have hry := hilbertStep_ry_le t ((t >>> 1) &&& 1)
  have hsx : s * ((t >>> 1) &&& 1) ≤ s := by
    calc s * ((t >>> 1) &&& 1) ≤ s * 1 := Nat.mul_le_mul_left s hrx
    _ = s := Nat.mul_one s
  have hsy : s * ((t ^^^ ((t >>> 1) &&& 1)) &&& 1) ≤ s := by
    calc s * ((t ^^^ ((t >>> 1) &&& 1)) &&& 1) ≤ s * 1 := Nat.mul_le_mul_left s hry
    _ = s := Nat.mul_one s
  unfold hilbertStep
  dsimp only
  split
  · split
    · dsimp only; omega
    · dsimp only; omega
  · omega

/-- All coordinates produced by the loop stay below `2^k` times the initial
sub-square side. -/
theorem hilbertLoop_lt : ∀ (k : Nat) (p : Nat × Nat) (s t : Nat),
    p.1 < s → p.2 < s →
    (hilbertLoop k p s t).1 < 2 ^ k * s ∧ (hilbertLoop k p s t).2 < 2 ^ k * s := by
  intro k
  induction k with
  | zero => intro p s t hx hy; simpa using ⟨hx, hy⟩
  | succ k ih =>
    intro p s t hx hy
    have hstep := hilbertStep_lt p s t hx hy
    have := ih (hilbertStep p s t) (2 * s) (t >>> 2) hstep.1 hstep.2
    have h2 : 2 ^ k * (2 * s) = 2 ^ (k + 1) * s := by ring
    simpa [hilbertLoop, h2] using this

theorem hilbertPoint_lt (order d : Nat) :
    (hilbertPoint order d).1 < 2 ^ order ∧ (hilbertPoint order d).2 < 2 ^ order := by
  have := hilbertLoop_lt order (0, 0) 1 d (by norm_num) (by norm_num)
  simpa [hilbertPoint] using this

/-- **C1.** For every `order ≥ 0` and every distance `d < 4^order`,
`hilbert_d2xy d order` returns coordinates `(x, y)` with `x < 2^order` and
`y < 2^order`; and for `order = 0` it returns `(0, 0)` for every distance. -/
theorem hilbert_d2xy_in_bounds :
    (∀ order d : Nat, d < 4 ^ order →
      ∃ x y : Nat, hilbert_d2xy d order = some (x, y) ∧
        x < 2 ^ order ∧ y < 2 ^ order) ∧
    (∀ d : Nat, hilbert_d2xy d 0 = some (0, 0)) := by
  constructor
  · intro order d _
    refine ⟨(hilbertPoint order d).1, (hilbertPoint order d).2,
      by rw [hilbert_d2xy_eq_point], hilbertPoint_lt order d⟩
  · intro d; rfl

/-- Witness for `hilbert_d2xy_in_bounds` at `order = 2`, `d = 5`. -/
theorem hilbert_d2xy_in_bounds_witness :
    ∃ x y : Nat, hilbert_d2xy 5 2 = some (x, y) ∧ x < 2 ^ 2 ∧ y < 2 ^ 2 :=
  hilbert_d2xy_in_bounds.1 2 5 (by norm_num)

/-! ### Structure of the loop: the last iteration processes bits `2k`, `2k+1` -/

theorem hilbertLoop_succ : ∀ (k : Nat) (p : Nat × Nat) (s t : Nat),
    hilbertLoop (k + 1) p s t =
      hilbertStep (hilbertLoop k p s t) (2 ^ k * s) (t >>> (2 * k)) := by
  intro k
  induction k with
  | zero =>
    intro p s t
    simp [hilbertLoop]
  | succ k ih =>
    intro p s t
    have h1 : hilbertLoop (k + 2) p s t
        = hilbertLoop (k + 1) (hilbertStep p s t) (2 * s) (t >>> 2) := rfl
    have h2 : hilbertLoop (k + 1) p s t
        = hilbertLoop k (hilbertStep p s t) (2 * s) (t >>> 2) := rfl
    rw [h1, ih, h2]
    have hpow : 2 ^ k * (2 * s) = 2 ^ (k + 1) * s := by ring
    have hshift : (t >>> 2) >>> (2 * k) = t >>> (2 * (k + 1)) := by
      rw [← Nat.shiftRight_add]
      congr 1
      ring
    rw [hpow, hshift]

/-- The loop only consults the low `2k` bits of the distance. -/
theorem hilbertLoop_mod : ∀ (k : Nat) (p : Nat × Nat) (s t : Nat),
    hilbertLoop k p s (t % 4 ^ k) = hilbertLoop k p s t := by
  intro k
  induction k with
  | zero => intro p s t; rfl
  | succ k ih =>
    intro p s t
    show hilbertLoop k (hilbertStep p s (t % 4 ^ (k + 1))) (2 * s) ((t % 4 ^ (k + 1)) >>> 2)
      = hilbertLoop k (hilbertStep p s t) (2 * s) (t >>> 2)
    have h4 : (4 : Nat) ^ (k + 1) = 4 * 4 ^ k := by rw [pow_succ]; ring
    have hstep : hilbertStep p s (t % 4 ^ (k + 1)) = hilbertStep p s t := by
      have hmm : t % 4 ^ (k + 1) % 4 = t % 4 :=
        Nat.mod_mod_of_dvd t ⟨4 ^ k, h4⟩
      calc hilbertStep p s (t % 4 ^ (k + 1))
          = hilbertStep p s (t % 4 ^ (k + 1) % 4) :=
            (hilbertStep_mod_four p s (t % 4 ^ (k + 1))).symm
        _ = hilbertStep p s (t % 4) := by rw [hmm]
        _ = hilbertStep p s t := hilbertStep_mod_four p s t
    have hshift : (t % 4 ^ (k + 1)) >>> 2 = (t >>> 2) % 4 ^ k := by
      rw [Nat.shiftRight_eq_div_pow, Nat.shiftRight_eq_div_pow]
      norm_num
      rw [h4, Nat.mod_mul_right_div_self]
    rw [hstep, hshift, ih]

/-- **C9.** `hilbert_d2xy` performs no range check on the distance: for every
order and every distance `d ≥ 4^order` the output equals the output on
`d % 4^order`, because only the low `2·order` bits of the distance are
consulted by the loop. -/
theorem hilbert_d2xy_no_range_check (order d : Nat) (h : 4 ^ order ≤ d) :
    hilbert_d2xy d order = hilbert_d2xy (d % 4 ^ order) order := by
  rw [hilbert_d2xy_eq_point, hilbert_d2xy_eq_point, hilbertPoint, hilbertPoint,
    hilbertLoop_mod]

/-- Witness for `hilbert_d2xy_no_range_check` at `order = 1`, `d = 7`. -/
theorem hilbert_d2xy_no_range_check_witness :
    hilbert_d2xy 7 1 = hilbert_d2xy (7 % 4 ^ 1) 1 :=
  hilbert_d2xy_no_range_check 1 7 (by norm_num)

/-- Peeling the most significant bit pair: quadrant `d / 4^k` is applied last
to the point of the truncated distance `d % 4^k`. -/
theorem hilbertPoint_succ_div_mod (k d : Nat) :
    hilbertPoint (k + 1) d
      = hilbertStep (hilbertPoint k (d % 4 ^ k)) (2 ^ k) (d / 4 ^ k) := by
  have h1 : hilbertPoint (k + 1) d
      = hilbertStep (hilbertLoop k (0, 0) 1 d) (2 ^ k * 1) (d >>> (2 * k)) :=
    hilbertLoop_succ k (0, 0) 1 d
  have h3 : d >>> (2 * k) = d / 4 ^ k := by
    rw [Nat.shiftRight_eq_div_pow]
    congr 1
    rw [pow_mul]
    norm_num
  have h4 : hilbertLoop k (0, 0) 1 d = hilbertPoint k (d % 4 ^ k) :=
    (hilbertLoop_mod k (0, 0) 1 d).symm
  rw [h1, h3, h4, mul_one]

/-- The curve enters the grid at the origin. -/
theorem hilbertPoint_zero_eq (k : Nat) : hilbertPoint k 0 = (0, 0) := by
  induction k with
  | zero => rfl
  | succ k ih =>
    rw [hilbertPoint_succ_div_mod, Nat.zero_mod, Nat.zero_div, ih, hilbertStep_zero]

/-- The curve exits the grid at `(2^k - 1, 0)`. -/
theorem hilbertPoint_last (k : Nat) : hilbertPoint k (4 ^ k - 1) = (2 ^ k - 1, 0) := by
  induction k with
  | zero => rfl
  | succ k ih =>
    have hN : 0 < (4 : Nat) ^ k := pow_pos (by norm_num) k
    have hs : 0 < (2 : Nat) ^ k := pow_pos (by norm_num) k
    have h4 : (4 : Nat) ^ (k + 1) = 4 * 4 ^ k := by rw [pow_succ]; ring
    have hform : 4 ^ (k + 1) - 1 = (4 ^ k - 1) + 3 * 4 ^ k := by
      rw [h4]; omega
    have hmod : (4 ^ (k + 1) - 1) % 4 ^ k = 4 ^ k - 1 := by
      rw [hform, Nat.add_mul_mod_self_right, Nat.mod_eq_of_lt (by omega)]
    have hdiv : (4 ^ (k + 1) - 1) / 4 ^ k = 3 := by
      rw [hform, Nat.add_mul_div_right _ _ hN, Nat.div_eq_of_lt (by omega)]
    rw [hilbertPoint_succ_div_mod, hmod, hdiv, ih, hilbertStep_three]
    have h2 : (2 : Nat) ^ (k + 1) = 2 * 2 ^ k := by rw [pow_succ]; ring
    rw [Prod.mk.injEq]
    constructor <;> dsimp only <;> omega

/-- The Hilbert transform is injective on distances below `4^k`. -/
theorem hilbertPoint_inj : ∀ (k : Nat) {d₁ d₂ : Nat}, d₁ < 4 ^ k → d₂ < 4 ^ k →
    hilbertPoint k d₁ = hilbertPoint k d₂ → d₁ = d₂ := by
  intro k
  induction k with
  | zero => intro d₁ d₂ h₁ h₂ _; omega
  | succ k ih =>
    intro d₁ d₂ h₁ h₂ heq
    have hN : 0 < (4 : Nat) ^ k := pow_pos (by norm_num) k
    have h4 : (4 : Nat) ^ (k + 1) = 4 * 4 ^ k := by rw [pow_succ]; ring
    rw [hilbertPoint_succ_div_mod, hilbertPoint_succ_div_mod] at heq
    obtain ⟨hb1x, hb1y⟩ := hilbertPoint_lt k (d₁ % 4 ^ k)
    obtain ⟨hb2x, hb2y⟩ := hilbertPoint_lt k (d₂ % 4 ^ k)
    have hdm₁ := Nat.div_add_mod d₁ (4 ^ k)
    have hdm₂ := Nat.div_add_mod d₂ (4 ^ k)
    have hq₁ : d₁ / 4 ^ k < 4 := Nat.div_lt_of_lt_mul (by omega)
    have hq₂ : d₂ / 4 ^ k < 4 := Nat.div_lt_of_lt_mul (by omega)
    have hrm₁ : d₁ % 4 ^ k < 4 ^ k := Nat.mod_lt _ hN
    have hrm₂ : d₂ % 4 ^ k < 4 ^ k := Nat.mod_lt _ hN
    set p₁ := hilbertPoint k (d₁ % 4 ^ k) with hp₁
    set p₂ := hilbertPoint k (d₂ % 4 ^ k) with hp₂
    set q₁ := d₁ / 4 ^ k with hq₁def
    set q₂ := d₂ / 4 ^ k with hq₂def
    interval_cases q₁ <;> interval_cases q₂ <;>
      simp only [hilbertStep_zero, hilbertStep_one, hilbertStep_two,
        hilbertStep_three, Prod.mk.injEq] at heq <;>
      obtain ⟨hA, hB⟩ := heq <;>
      first
        | omega
        | (have h1 : p₁.1 = p₂.1 := by omega
           have h2 : p₁.2 = p₂.2 := by omega
           have hr := ih hrm₁ hrm₂ (Prod.ext h1 h2)
           omega)

/-- The Hilbert transform hits every point of the `2^k × 2^k` grid. -/
theorem hilbertPoint_surj (k : Nat) : ∀ x y : Nat, x < 2 ^ k → y < 2 ^ k →
    ∃ d, d < 4 ^ k ∧ hilbertPoint k d = (x, y) := by
  have hcard : Fintype.card (Fin (4 ^ k)) = Fintype.card (Fin (2 ^ k) × Fin (2 ^ k)) := by
    simp only [Fintype.card_fin, Fintype.card_prod]
    rw [← mul_pow]
    norm_num
  let F : Fin (4 ^ k) → Fin (2 ^ k) × Fin (2 ^ k) := fun d =>
    (⟨(hilbertPoint k d.val).1, (hilbertPoint_lt k d.val).1⟩,
     ⟨(hilbertPoint k d.val).2, (hilbertPoint_lt k d.val).2⟩)
  have hinj : Function.Injective F := by
    intro a b hab
    have h1 : (hilbertPoint k a.val).1 = (hilbertPoint k b.val).1 :=
      congrArg (fun z => z.1.val) hab
    have h2 : (hilbertPoint k a.val).2 = (hilbertPoint k b.val).2 :=
      congrArg (fun z => z.2.val) hab
    exact Fin.ext (hilbertPoint_inj k a.isLt b.isLt (Prod.ext h1 h2))
  have hbij := (Fintype.bijective_iff_injective_and_card F).2 ⟨hinj, hcard⟩
  intro x y hx hy
  obtain ⟨d, hd⟩ := hbij.2 (⟨x, hx⟩, ⟨y, hy⟩)
  refine ⟨d.val, d.isLt, ?_⟩
  have h1 : (hilbertPoint k d.val).1 = x := congrArg (fun z => z.1.val) hd
  have h2 : (hilbertPoint k d.val).2 = y := congrArg (fun z => z.2.val) hd
  exact Prod.ext h1 h2

/-- **C2.** For every fixed order, `distance ↦ hilbert_d2xy distance order`
restricted to `[0, 4^order)` is injective, and surjective onto the grid
`[0, 2^order) × [0, 2^order)`. -/
theorem hilbert_d2xy_bijective (order : Nat) :
    (∀ d₁ d₂ : Nat, d₁ < 4 ^ order → d₂ < 4 ^ order →
      hilbert_d2xy d₁ order = hilbert_d2xy d₂ order → d₁ = d₂) ∧
    (∀ x y : Nat, x < 2 ^ order → y < 2 ^ order →
      ∃ d, d < 4 ^ order ∧ hilbert_d2xy d order = some (x, y)) := by
  constructor
  · intro d₁ d₂ h₁ h₂ h
    rw [hilbert_d2xy_eq_point, hilbert_d2xy_eq_point] at h
    exact hilbertPoint_inj order h₁ h₂ (Option.some.inj h)
  · intro x y hx hy
    obtain ⟨d, hd, hp⟩ := hilbertPoint_surj order x y hx hy
    exact ⟨d, hd, by rw [hilbert_d2xy_eq_point, hp]⟩

/-- Witness for `hilbert_d2xy_bijective`: the point `(0, 1)` of the `2 × 2`
grid is hit by some distance below `4`. -/
theorem hilbert_d2xy_bijective_witness :
    ∃ d, d < 4 ^ 1 ∧ hilbert_d2xy d 1 = some (0, 1) :=
  (hilbert_d2xy_bijective 1).2 0 1 (by norm_num) (by norm_num)

/-- Two grid points differ by exactly 1 in exactly one coordinate. -/
def Adjacent (p q : Nat × Nat) : Prop :=
  (p.1 = q.1 ∧ (p.2 + 1 = q.2 ∨ q.2 + 1 = p.2)) ∨
  (p.2 = q.2 ∧ (p.1 + 1 = q.1 ∨ q.1 + 1 = p.1))

theorem hilbertPoint_adjacent : ∀ (k : Nat) (d : Nat), d + 1 < 4 ^ k →
    Adjacent (hilbertPoint k d) (hilbertPoint k (d + 1)) := by
  intro k
  induction k with
  | zero => intro d h; omega
  | succ k ih =>
    intro d h
    have hN : 0 < (4 : Nat) ^ k := pow_pos (by norm_num) k
    have hs : 0 < (2 : Nat) ^ k := pow_pos (by norm_num) k
    have h4 : (4 : Nat) ^ (k + 1) = 4 * 4 ^ k := by rw [pow_succ]; ring
    have hdm := Nat.div_add_mod d (4 ^ k)
    have hq : d / 4 ^ k < 4 := Nat.div_lt_of_lt_mul (by omega)
    rw [hilbertPoint_succ_div_mod, hilbertPoint_succ_div_mod]
    set a := d / 4 ^ k with hadef
    set r := d % 4 ^ k with hrdef
    by_cases hr : r + 1 < 4 ^ k
    · -- `d` and `d + 1` lie in the same quadrant
      have hd1eq : d + 1 = (r + 1) + a * 4 ^ k := by rw [← hdm]; ring
      have hdiv : (d + 1) / 4 ^ k = a := by
        rw [hd1eq, Nat.add_mul_div_right _ _ hN, Nat.div_eq_of_lt hr, Nat.zero_add]
      have hmod : (d + 1) % 4 ^ k = r + 1 := by
        rw [hd1eq, Nat.add_mul_mod_self_right, Nat.mod_eq_of_lt hr]
      rw [hdiv, hmod]
      have hadj := ih r hr
      obtain ⟨hb1x, hb1y⟩ := hilbertPoint_lt k r
      obtain ⟨hb2x, hb2y⟩ := hilbertPoint_lt k (r + 1)
      set p₁ := hilbertPoint k r with hp₁
      set p₂ := hilbertPoint k (r + 1) with hp₂
      unfold Adjacent at hadj ⊢
      interval_cases a <;>
        simp only [hilbertStep_zero, hilbertStep_one, hilbertStep_two,
          hilbertStep_three] <;>
        omega
    · -- `d + 1` starts the next quadrant
      have hrm : r < 4 ^ k := Nat.mod_lt _ hN
      have hrEq : r = 4 ^ k - 1 := by omega
      have hsum : 4 ^ k - 1 + 1 = 4 ^ k := by omega
      have hd1eq : d + 1 = (a + 1) * 4 ^ k := by
        calc d + 1 = 4 ^ k * a + (4 ^ k - 1) + 1 := by rw [← hrEq, hdm]
          _ = 4 ^ k * a + (4 ^ k - 1 + 1) := by ring
          _ = 4 ^ k * a + 4 ^ k := by rw [hsum]
          _ = (a + 1) * 4 ^ k := by ring
      have hdiv : (d + 1) / 4 ^ k = a + 1 := by
        rw [hd1eq, Nat.mul_div_cancel _ hN]
      have hmod : (d + 1) % 4 ^ k = 0 := by
        rw [hd1eq, Nat.mul_mod_left]
      have hq3 : a < 3 := by
        by_contra hcon
        have h3 : a = 3 := by omega
        rw [hd1eq, h3, h4] at h
        omega
      rw [hrEq, hdiv, hmod, hilbertPoint_last, hilbertPoint_zero_eq]
      unfold Adjacent
      interval_cases a <;>
        norm_num [hilbertStep_zero, hilbertStep_one, hilbertStep_two,
          hilbertStep_three] <;>
        omega

/-- **C8.** For every order ≥ 1 and consecutive distances `d`, `d + 1` below
`4^order`, the two returned points are edge-adjacent: they differ by exactly 1
in exactly one coordinate. -/
theorem hilbert_d2xy_adjacent (order d : Nat) (ho : 1 ≤ order)
    (h : d + 1 < 4 ^ order) :
    ∃ p q : Nat × Nat, hilbert_d2xy d order = some p ∧
      hilbert_d2xy (d + 1) order = some q ∧ Adjacent p q :=
  ⟨hilbertPoint order d, hilbertPoint order (d + 1),
    hilbert_d2xy_eq_point d order, hilbert_d2xy_eq_point (d + 1) order,
    hilbertPoint_adjacent order d h⟩

/-- Witness for `hilbert_d2xy_adjacent` at `order = 1`, `d = 0`. -/
theorem hilbert_d2xy_adjacent_witness :
    ∃ p q : Nat × Nat, hilbert_d2xy 0 1 = some p ∧
      hilbert_d2xy 1 1 = some q ∧ Adjacent p q :=
  hilbert_d2xy_adjacent 1 0 (by norm_num) (by norm_num)

/-! ## `src/lib.rs` — image geometry -/

/-- `image_size_for_bpp` (`src/lib.rs` lines 62–65): side length of the
output image, `1 << ((32 - bits_per_pixel) / 2)`. -/
def image_size_for_bpp (bits_per_pixel : Nat) : Nat :=
  1 <<< ((32 - bits_per_pixel) / 2)

theorem image_size_for_bpp_eq_pow (bits_per_pixel : Nat) :
    image_size_for_bpp bits_per_pixel = 2 ^ ((32 - bits_per_pixel) / 2) := by
  rw [image_size_for_bpp, Nat.shiftLeft_eq, one_mul]

/-- **C5.** For every valid granularity (`32 - bits_per_pixel` even and
non-negative), `side² × 2^bits_per_pixel = 2^32` exactly: the pixel grid
partitions the whole 32-bit address space. -/
theorem image_size_partitions_address_space (bits_per_pixel : Nat)
    (h32 : bits_per_pixel ≤ 32) (heven : 2 ∣ (32 - bits_per_pixel)) :
    image_size_for_bpp bits_per_pixel ^ 2 * 2 ^ bits_per_pixel = 2 ^ 32 := by
  obtain ⟨m, hm⟩ := heven
  have hm2 : (2 * m) / 2 = m := by omega
  rw [image_size_for_bpp_eq_pow, hm, hm2, ← pow_mul, ← pow_add]
  congr 1
  omega

/-- Witness for `image_size_partitions_address_space` at
`bits_per_pixel = 8`. -/
theorem image_size_partitions_address_space_witness :
    image_size_for_bpp 8 ^ 2 * 2 ^ 8 = 2 ^ 32 :=
  image_size_partitions_address_space 8 (by norm_num) (by norm_num)

/-! ## Exact model of the `f64` arithmetic used by the paint path

Every float appearing in `paint_address`/`paint_cidr_range` holds an integer
value: an `i32` weight (exactly representable, `|v| < 2^53`), a `u64` overlap
count `≤ 2^32` (exactly representable) and `2^bits_per_pixel`.  The only
operation that can round is the multiplication `value * overlap_count`
(its result can exceed 53 significant bits); the final division by the power
of two `2^bits_per_pixel` only shifts the exponent and is always exact here
(the quotient's magnitude is either 0 or at least `2^-32`, far above the
subnormal threshold).  `f64roundNat`/`f64round` model IEEE-754
round-to-nearest-even restricted to integer values. -/

/-- Round a natural number to 53 significant bits, nearest-even. -/
def f64roundNat (n : Nat) : Nat :=
  if n < 2 ^ 53 then n
  else
    let e := Nat.log2 n
    let u := 2 ^ (e - 52)
    let q := n / u
    let r := n % u
    if 2 * r < u then q * u
    else if u < 2 * r then (q + 1) * u
    else if q % 2 = 0 then q * u else (q + 1) * u

/-- Round an integer to 53 significant bits, nearest-even (the value of the
`f64` holding an integer computation whose exact result is `p`). -/
def f64round (p : Int) : Int :=
  if p < 0 then -(f64roundNat p.natAbs : Int) else (f64roundNat p.natAbs : Int)

/-- A multiple of `2^j` below `2^(53+j)` has at most 53 significant bits and
is exactly representable. -/
theorem f64roundNat_eq_of_dvd (j n : Nat) (hdvd : 2 ^ j ∣ n)
    (hlt : n < 2 ^ (53 + j)) : f64roundNat n = n := by
  unfold f64roundNat
  split
  · rfl
  · next hge =>
    have hn0 : n ≠ 0 := by
      intro h0
      rw [h0] at hge
      exact hge (pow_pos (by norm_num) 53)
    have hlog : Nat.log2 n < 53 + j := (Nat.log2_lt hn0).2 hlt
    have he52 : Nat.log2 n - 52 ≤ j := by omega
    have hud : (2 : Nat) ^ (Nat.log2 n - 52) ∣ n :=
      dvd_trans (pow_dvd_pow 2 he52) hdvd
    have hupos : 0 < (2 : Nat) ^ (Nat.log2 n - 52) := pow_pos (by norm_num) _
    have hr0 : n % 2 ^ (Nat.log2 n - 52) = 0 := Nat.mod_eq_zero_of_dvd hud
    dsimp only
    rw [hr0, Nat.mul_zero, if_pos hupos, Nat.div_mul_cancel hud]

theorem f64round_eq_of_dvd (j : Nat) (p : Int) (hdvd : (2 : Int) ^ j ∣ p)
    (hlt : p.natAbs < 2 ^ (53 + j)) : f64round p = p := by
  have hdvdn : 2 ^ j ∣ p.natAbs := by
    have h := Int.natAbs_dvd_natAbs.2 hdvd
    simpa [Int.natAbs_pow] using h
  have hround := f64roundNat_eq_of_dvd j p.natAbs hdvdn hlt
  unfold f64round
  split <;> rw [hround] <;> omega

/-- Integers below `2^53` in magnitude are exactly representable. -/
theorem f64round_eq_of_small (p : Int) (h : p.natAbs < 2 ^ 53) :
    f64round p = p :=
  f64round_eq_of_dvd 0 p (by simpa using one_dvd p) (by simpa using h)

/-- The saturating `as i32` cast applied to an integer-valued `f64`. -/
def i32sat (x : Int) : Int := max (-(2 ^ 31)) (min (2 ^ 31 - 1) x)

theorem i32sat_eq_of_range (x : Int) (h1 : -(2 ^ 31) ≤ x) (h2 : x ≤ 2 ^ 31 - 1) :
    i32sat x = x := by
  unfold i32sat
  omega

/-! ## `src/lib.rs` and `src/scale.rs` — enums -/

/-- `DomainType` from `src/scale.rs`. -/
inductive DomainType
  | Linear
  | Logarithmic
deriving DecidableEq

/-- `ValueMode` from `src/lib.rs`. -/
inductive ValueMode
  | Categorical
  | Raw
  | Scaled
deriving DecidableEq

/-! ## `src/lib.rs` — the `Heatmap` session

The Rust buffer is a `Vec<Vec<i32>>` of dimensions side × side, indexed
`buffer[y][x]`; it is modelled as a total function `Nat → Nat → Int` (row
first).  Theorem `ip_to_xy_always_in_bounds` shows that every index the paint
path produces lies below the allocated side length, so the total-function
model agrees with the vector on every access the code performs.  `i32` cell
values are modelled as `Int`. -/
structure Heatmap where
  buffer : Nat → Nat → Int
  curve : DomainType
  min_value : Option ℚ
  max_value : Option ℚ
  accumulate : Bool
  bits_per_pixel : Nat
  colour_scale : String
  value_mode : ValueMode

/-- `Heatmap::new` (`src/lib.rs` lines 96–123).  Note: the source performs no
validation of `bits_per_pixel` here; the buffer is filled with `-1` in
categorical mode and `0` otherwise. -/
def Heatmap.new (curve : DomainType) (min_value max_value : Option ℚ)
    (accumulate : Bool) (bits_per_pixel : Nat) (colour_scale : String)
    (value_mode : ValueMode) : Heatmap :=
  let init_value : Int :=
    match value_mode with
    | .Categorical => -1
    | .Raw | .Scaled => 0
  { buffer := fun _ _ => init_value
    curve := curve
    min_value := min_value
    max_value := max_value
    accumulate := accumulate
    bits_per_pixel := bits_per_pixel
    colour_scale := colour_scale
    value_mode := value_mode }

/-- `Heatmap::image_size`. -/
def Heatmap.image_size (h : Heatmap) : Nat := image_size_for_bpp h.bits_per_pixel

/-- `Heatmap::ip_to_xy` (`src/lib.rs` lines 125–132). -/
def Heatmap.ip_to_xy (h : Heatmap) (ip : Nat) : Option (Nat × Nat) :=
  let hilbert_curve_order := (32 - h.bits_per_pixel) / 2
  let d := ip >>> h.bits_per_pixel
  hilbert_d2xy d hilbert_curve_order

/-- `Heatmap::paint_pixel` (`src/lib.rs` lines 134–140): add to or overwrite
the cell at `(x, y)` depending on the `accumulate` flag. -/
def Heatmap.paint_pixel (h : Heatmap) (x y : Nat) (value : Int) : Heatmap :=
  { h with buffer := fun y0 x0 =>
      if y0 = y ∧ x0 = x then
        (if h.accumulate then h.buffer y x + value else value)
      else h.buffer y0 x0 }

/-- `Heatmap::paint_address` (`src/lib.rs` lines 142–155).  In `Scaled` mode
the painted value is `(value as f64 / ips_per_pixel as f64) as i32`; the
division of an exactly-represented `i32` by the power of two
`2^bits_per_pixel` is exact in `f64`, so the cast truncates the exact
quotient toward zero: `i32sat (Int.tdiv … 2^bpp)`. -/
def Heatmap.paint_address (h : Heatmap) (addr : Nat) (value : Int) : Heatmap :=
  let paint_value : Int :=
    match h.value_mode with
    | .Categorical | .Raw => value
    | .Scaled =>
      let ips_per_pixel : Nat := 1 <<< h.bits_per_pixel
      i32sat (Int.tdiv (f64round value) (ips_per_pixel : Int))
  match h.ip_to_xy addr with
  | some (x, y) => h.paint_pixel x y paint_value
  | none => h

/-- `Ipv4Net` (external crate `ipnet`, used by `src/lib.rs`): an address plus
a prefix length.  `network` masks the host bits away, `broadcast` sets them
(`network` has zero host bits, so `or`-ing the host mask adds `2^h - 1`). -/
structure Ipv4Net where
  addr : Nat
  prefix_len : Nat
deriving DecidableEq

def Ipv4Net.network (n : Ipv4Net) : Nat :=
  (n.addr >>> (32 - n.prefix_len)) <<< (32 - n.prefix_len)

def Ipv4Net.broadcast (n : Ipv4Net) : Nat :=
  n.network + (1 <<< (32 - n.prefix_len)) - 1

/-- Body of the `for pixel_d in first_pixel_d..=last_pixel_d` loop of
`Heatmap::paint_cidr_range` (`src/lib.rs` lines 168–190), for one pixel
distance `pixel_d`.  In `Scaled` mode the painted value is
`(value as f64 * overlap_count as f64 / ips_per_pixel as f64) as i32`:
both factors are exactly representable (`|value| < 2^53`,
`overlap_count ≤ 2^32 < 2^53`), the product rounds per `f64round`, and the
division by the power of two is exact, so the cast truncates that quotient
toward zero.  `pixel_first_ip as u32` is the `% 2^32` reduction. -/
def Heatmap.paintOne (h : Heatmap) (first_ip last_ip : Nat) (value : Int)
    (pixel_d : Nat) : Heatmap :=
  let ips_per_pixel : Nat := 1 <<< h.bits_per_pixel
  let pixel_first_ip := pixel_d <<< h.bits_per_pixel
  let pixel_last_ip := pixel_first_ip + ips_per_pixel - 1
  let overlap_first := max first_ip pixel_first_ip
  let overlap_last := min last_ip pixel_last_ip
  if overlap_first ≤ overlap_last then
    let paint_value : Int :=
      match h.value_mode with
      | .Categorical | .Raw => value
      | .Scaled =>
        let overlap_count : Nat := overlap_last - overlap_first + 1
        i32sat (Int.tdiv (f64round (value * overlap_count)) (ips_per_pixel : Int))
    match h.ip_to_xy (pixel_first_ip % 2 ^ 32) with
    | some (x, y) => h.paint_pixel x y paint_value
    | none => h
  else h

/-- The pixel loop of `paint_cidr_range`, iterating `count` pixel distances
starting at `d`. -/
def Heatmap.paintLoop : Heatmap → Nat → Nat → Int → Nat → Nat → Heatmap
  | h, _, _, _, _, 0 => h
  | h, first_ip, last_ip, value, d, c + 1 =>
    Heatmap.paintLoop (h.paintOne first_ip last_ip value d)
      first_ip last_ip value (d + 1) c

/-- `Heatmap::paint_cidr_range` (`src/lib.rs` lines 157–193): iterate over
the pixel distances covered by the CIDR block (inclusive), painting each. -/
def Heatmap.paint_cidr_range (h : Heatmap) (cidr : Ipv4Net) (value : Int) :
    Heatmap :=
  let first_ip := cidr.network
  let last_ip := cidr.broadcast
  let first_pixel_d := first_ip >>> h.bits_per_pixel
  let last_pixel_d := last_ip >>> h.bits_per_pixel
  Heatmap.paintLoop h first_ip last_ip value first_pixel_d
    (last_pixel_d + 1 - first_pixel_d)

/-- `ip_to_xy` never returns `None` and its coordinates are always below the
allocated image side, for any `bits_per_pixel ≤ 32`. -/
theorem ip_to_xy_some_lt (h : Heatmap) (ip : Nat) :
    ∃ x y : Nat, h.ip_to_xy ip = some (x, y) ∧
      x < 2 ^ ((32 - h.bits_per_pixel) / 2) ∧
      y < 2 ^ ((32 - h.bits_per_pixel) / 2) := by
  obtain ⟨hx, hy⟩ :=
    hilbertPoint_lt ((32 - h.bits_per_pixel) / 2) (ip >>> h.bits_per_pixel)
  exact ⟨_, _, hilbert_d2xy_eq_point _ _, hx, hy⟩

/-- **C10.** For every heatmap with even `bits_per_pixel ≤ 32` and every
32-bit address, `ip_to_xy` always returns `some (x, y)` with `x` and `y`
strictly below the image side, so every buffer access performed by
`paint_pixel` on behalf of `paint_address` and `paint_cidr_range` stays
inside the allocated side × side grid (the out-of-bounds panic branch of the
Rust indexing is unreachable). -/
theorem ip_to_xy_always_in_bounds (h : Heatmap) (ip : Nat)
    (hbpp : h.bits_per_pixel ≤ 32) (heven : 2 ∣ h.bits_per_pixel)
    (hip : ip < 2 ^ 32) :
    ∃ x y : Nat, h.ip_to_xy ip = some (x, y) ∧
      x < h.image_size ∧ y < h.image_size := by
  have hsize : h.image_size = 2 ^ ((32 - h.bits_per_pixel) / 2) :=
    image_size_for_bpp_eq_pow h.bits_per_pixel
  obtain ⟨x, y, hxy, hx, hy⟩ := ip_to_xy_some_lt h ip
  exact ⟨x, y, hxy, by rw [hsize]; exact hx, by rw [hsize]; exact hy⟩

/-- Witness for `ip_to_xy_always_in_bounds` at `bits_per_pixel = 8`,
address `0`. -/
theorem ip_to_xy_always_in_bounds_witness :
    ∃ x y : Nat,
      (Heatmap.new DomainType.Linear none none true 8 "magma"
        ValueMode.Scaled).ip_to_xy 0 = some (x, y) ∧
      x < (Heatmap.new DomainType.Linear none none true 8 "magma"
        ValueMode.Scaled).image_size ∧
      y < (Heatmap.new DomainType.Linear none none true 8 "magma"
        ValueMode.Scaled).image_size :=
  ip_to_xy_always_in_bounds _ 0 (by norm_num [Heatmap.new])
    (by norm_num [Heatmap.new]) (by norm_num)

/-! ### Characterising the paint path -/

theorem one_shiftLeft_eq (bpp : Nat) : (1 : Nat) <<< bpp = 2 ^ bpp := by
  rw [Nat.shiftLeft_eq, one_mul]

/-- Shifting a pixel distance up, truncating to `u32` and shifting back is
the identity when the distance indexes a pixel of the 32-bit space. -/
theorem shift_roundtrip (bpp d : Nat) (hbpp : bpp ≤ 32)
    (hd : d < 2 ^ (32 - bpp)) : (d <<< bpp % 2 ^ 32) >>> bpp = d := by
  rw [Nat.shiftLeft_eq, Nat.shiftRight_eq_div_pow]
  have hlt : d * 2 ^ bpp < 2 ^ 32 := by
    calc d * 2 ^ bpp < 2 ^ (32 - bpp) * 2 ^ bpp :=
          (Nat.mul_lt_mul_right (pow_pos (by norm_num) bpp)).mpr hd
      _ = 2 ^ 32 := by rw [← pow_add]; congr 1; omega
  rw [Nat.mod_eq_of_lt hlt, Nat.mul_div_cancel _ (pow_pos (by norm_num) bpp)]

theorem ip_to_xy_pixel_first (h : Heatmap) (d : Nat)
    (hbpp : h.bits_per_pixel ≤ 32) (hd : d < 2 ^ (32 - h.bits_per_pixel)) :
    h.ip_to_xy (d <<< h.bits_per_pixel % 2 ^ 32) =
      some (hilbertPoint ((32 - h.bits_per_pixel) / 2) d) := by
  unfold Heatmap.ip_to_xy
  dsimp only
  rw [shift_roundtrip h.bits_per_pixel d hbpp hd, hilbert_d2xy_eq_point]

theorem paint_pixel_buffer_self (h : Heatmap) (x y : Nat) (v : Int) :
    (h.paint_pixel x y v).buffer y x =
      if h.accumulate then h.buffer y x + v else v := by
  unfold Heatmap.paint_pixel
  dsimp only
  rw [if_pos ⟨rfl, rfl⟩]

theorem paint_pixel_buffer_other (h : Heatmap) (x y : Nat) (v : Int)
    (y0 x0 : Nat) (hne : ¬(y0 = y ∧ x0 = x)) :
    (h.paint_pixel x y v).buffer y0 x0 = h.buffer y0 x0 := by
  unfold Heatmap.paint_pixel
  dsimp only
  rw [if_neg hne]

theorem paintOne_fields (h : Heatmap) (first last : Nat) (v : Int) (d : Nat) :
    (h.paintOne first last v d).bits_per_pixel = h.bits_per_pixel ∧
    (h.paintOne first last v d).value_mode = h.value_mode ∧
    (h.paintOne first last v d).accumulate = h.accumulate := by
  unfold Heatmap.paintOne
  dsimp only
  split
  · split <;> exact ⟨rfl, rfl, rfl⟩
  · exact ⟨rfl, rfl, rfl⟩

theorem paintOne_buffer_untouched (h : Heatmap) (first last : Nat) (v : Int)
    (d y0 x0 px py : Nat)
    (hip : h.ip_to_xy (d <<< h.bits_per_pixel % 2 ^ 32) = some (px, py))
    (hne : ¬(y0 = py ∧ x0 = px)) :
    (h.paintOne first last v d).buffer y0 x0 = h.buffer y0 x0 := by
  unfold Heatmap.paintOne
  dsimp only
  split
  · rw [hip]
    dsimp only
    exact paint_pixel_buffer_other h px py _ y0 x0 hne
  · rfl

/-- The value `paintOne` writes for one pixel, as a function of the session
mode, the granularity, the range bounds and the pixel distance.  This mirrors
the `paint_value` computation of the loop body verbatim (after rewriting the
shifts into powers of two). -/
def cidrPaintValue (mode : ValueMode) (bpp first_ip last_ip : Nat) (v : Int)
    (pixel_d : Nat) : Int :=
  match mode with
  | .Categorical | .Raw => v
  | .Scaled =>
    let overlap_count : Nat :=
      min last_ip (pixel_d * 2 ^ bpp + 2 ^ bpp - 1) -
        max first_ip (pixel_d * 2 ^ bpp) + 1
    i32sat (Int.tdiv (f64round (v * overlap_count)) ((2 ^ bpp : Nat) : Int))

/-- For a pixel distance between `first >>> bpp` and `last >>> bpp` the
overlap is never empty, so `paintOne` performs exactly one `paint_pixel`
write, at the Hilbert point of the pixel distance. -/
theorem paintOne_in_range (h : Heatmap) (first last : Nat) (v : Int) (d : Nat)
    (hbpp : h.bits_per_pixel ≤ 32) (hfl : first ≤ last) (hlast : last < 2 ^ 32)
    (hd1 : first >>> h.bits_per_pixel ≤ d)
    (hd2 : d ≤ last >>> h.bits_per_pixel) :
    h.paintOne first last v d =
      h.paint_pixel (hilbertPoint ((32 - h.bits_per_pixel) / 2) d).1
        (hilbertPoint ((32 - h.bits_per_pixel) / 2) d).2
        (cidrPaintValue h.value_mode h.bits_per_pixel first last v d) := by
  have hP : 0 < (2 : Nat) ^ h.bits_per_pixel := pow_pos (by norm_num) _
  rw [Nat.shiftRight_eq_div_pow] at hd1 hd2
  -- the pixel's address window always meets `[first, last]`
  have hfle : first ≤ d * 2 ^ h.bits_per_pixel + 2 ^ h.bits_per_pixel - 1 := by
    have hdm : (first / 2 ^ h.bits_per_pixel) * 2 ^ h.bits_per_pixel +
        first % 2 ^ h.bits_per_pixel = first := by
      rw [mul_comm]; exact Nat.div_add_mod first (2 ^ h.bits_per_pixel)
    have hmlt := Nat.mod_lt first hP
    have hmul : (first / 2 ^ h.bits_per_pixel) * 2 ^ h.bits_per_pixel ≤
        d * 2 ^ h.bits_per_pixel := Nat.mul_le_mul_right _ hd1
    omega
  have hdle : d * 2 ^ h.bits_per_pixel ≤ last := by
    have hdm : (last / 2 ^ h.bits_per_pixel) * 2 ^ h.bits_per_pixel +
        last % 2 ^ h.bits_per_pixel = last := by
      rw [mul_comm]; exact Nat.div_add_mod last (2 ^ h.bits_per_pixel)
    have hmul : d * 2 ^ h.bits_per_pixel ≤
        (last / 2 ^ h.bits_per_pixel) * 2 ^ h.bits_per_pixel :=
      Nat.mul_le_mul_right _ hd2
    omega
  have hcond : max first (d * 2 ^ h.bits_per_pixel) ≤
      min last (d * 2 ^ h.bits_per_pixel + 2 ^ h.bits_per_pixel - 1) := by
    omega
  have hdlt : d < 2 ^ (32 - h.bits_per_pixel) := by
    have hlast2 : last / 2 ^ h.bits_per_pixel < 2 ^ (32 - h.bits_per_pixel) := by
      rw [Nat.div_lt_iff_lt_mul hP, ← pow_add]
      have he : 32 - h.bits_per_pixel + h.bits_per_pixel = 32 := by omega
      rw [he]
      exact hlast
    omega
  have hip := ip_to_xy_pixel_first h d hbpp hdlt
  rw [Nat.shiftLeft_eq] at hip
  unfold Heatmap.paintOne
  dsimp only
  rw [one_shiftLeft_eq, Nat.shiftLeft_eq]
  rw [if_pos hcond, hip]
  rfl

theorem paintLoop_fields (first last : Nat) (v : Int) :
    ∀ (count : Nat) (h : Heatmap) (d : Nat),
      (Heatmap.paintLoop h first last v d count).bits_per_pixel =
          h.bits_per_pixel ∧
      (Heatmap.paintLoop h first last v d count).value_mode = h.value_mode ∧
      (Heatmap.paintLoop h first last v d count).accumulate = h.accumulate := by
  intro count
  induction count with
  | zero => intro h d; exact ⟨rfl, rfl, rfl⟩
  | succ c ih =>
    intro h d
    obtain ⟨h1, h2, h3⟩ := ih (h.paintOne first last v d) (d + 1)
    obtain ⟨g1, g2, g3⟩ := paintOne_fields h first last v d
    exact ⟨h1.trans g1, h2.trans g2, h3.trans g3⟩

/-- A cell whose coordinate is not hit by any of the loop's pixels keeps its
value. -/
theorem paintLoop_buffer_untouched :
    ∀ (count : Nat) (h : Heatmap) (first last : Nat) (v : Int) (d y0 x0 : Nat),
      h.bits_per_pixel ≤ 32 →
      (∀ i, i < count → d + i < 2 ^ (32 - h.bits_per_pixel)) →
      (∀ i, i < count →
        ¬(y0 = (hilbertPoint ((32 - h.bits_per_pixel) / 2) (d + i)).2 ∧
          x0 = (hilbertPoint ((32 - h.bits_per_pixel) / 2) (d + i)).1)) →
      (Heatmap.paintLoop h first last v d count).buffer y0 x0 =
        h.buffer y0 x0 := by
  intro count
  induction count with
  | zero => intro h first last v d y0 x0 _ _ _; rfl
  | succ c ih =>
    intro h first last v d y0 x0 hbpp hlt hne
    show (Heatmap.paintLoop (h.paintOne first last v d) first last v (d + 1)
        c).buffer y0 x0 = h.buffer y0 x0
    obtain ⟨hfb, _, _⟩ := paintOne_fields h first last v d
    have hstep : (h.paintOne first last v d).buffer y0 x0 = h.buffer y0 x0 := by
      have hd0 : d < 2 ^ (32 - h.bits_per_pixel) := by
        have := hlt 0 (by omega); simpa using this

      have hip := ip_to_xy_pixel_first h d hbpp hd0
      have hne0 := hne 0 (by omega)
      simp only [Nat.add_zero] at hne0
      exact paintOne_buffer_untouched h first last v d y0 x0 _ _ hip hne0
    rw [← hstep]
    apply ih (h.paintOne first last v d) first last v (d + 1) y0 x0
    · rw [hfb]; exact hbpp
    · intro i hi
      rw [hfb]
      have := hlt (i + 1) (by omega)
      have hadd : d + 1 + i = d + (i + 1) := by omega
      rw [hadd]
      exact this
    · intro i hi
      rw [hfb]
      have := hne (i + 1) (by omega)
      have hadd : d + 1 + i = d + (i + 1) := by omega
      rw [hadd]
      exact this

/-- Main loop characterisation: with pairwise-distinct pixel coordinates and
all pixel distances inside `[first >>> bpp, last >>> bpp]`, the cell of the
`i0`-th pixel ends up with exactly one write of its `cidrPaintValue`. -/
theorem paintLoop_buffer_write :
    ∀ (count : Nat) (h : Heatmap) (first last : Nat) (v : Int) (d i0 : Nat),
      h.bits_per_pixel ≤ 32 → first ≤ last → last < 2 ^ 32 →
      (∀ i, i < count → first >>> h.bits_per_pixel ≤ d + i ∧
        d + i ≤ last >>> h.bits_per_pixel) →
      (∀ i j, i < count → j < count →
        hilbertPoint ((32 - h.bits_per_pixel) / 2) (d + i) =
          hilbertPoint ((32 - h.bits_per_pixel) / 2) (d + j) → i = j) →
      i0 < count →
      (Heatmap.paintLoop h first last v d count).buffer
          (hilbertPoint ((32 - h.bits_per_pixel) / 2) (d + i0)).2
          (hilbertPoint ((32 - h.bits_per_pixel) / 2) (d + i0)).1 =
        (if h.accumulate then
          h.buffer (hilbertPoint ((32 - h.bits_per_pixel) / 2) (d + i0)).2
              (hilbertPoint ((32 - h.bits_per_pixel) / 2) (d + i0)).1 +
            cidrPaintValue h.value_mode h.bits_per_pixel first last v (d + i0)
        else cidrPaintValue h.value_mode h.bits_per_pixel first last v (d + i0)) := by
  intro count
  induction count with
  | zero => intro h first last v d i0 _ _ _ _ _ hi0; omega
  | succ c ih =>
    intro h first last v d i0 hbpp hfl hlast hrange hinj hi0
    -- pixel distances stay below the pixel count of the address space
    have hdlt : ∀ i, i < c + 1 → d + i < 2 ^ (32 - h.bits_per_pixel) := by
      intro i hi
      have h2 := (hrange i hi).2
      rw [Nat.shiftRight_eq_div_pow] at h2
      have hP : 0 < (2 : Nat) ^ h.bits_per_pixel := pow_pos (by norm_num) _
      have hlast2 : last / 2 ^ h.bits_per_pixel <
          2 ^ (32 - h.bits_per_pixel) := by
        rw [Nat.div_lt_iff_lt_mul hP, ← pow_add]
        have he : 32 - h.bits_per_pixel + h.bits_per_pixel = 32 := by omega
        rw [he]
        exact hlast
      omega
    show (Heatmap.paintLoop (h.paintOne first last v d) first last v (d + 1)
        c).buffer _ _ = _
    obtain ⟨hfb, hfm, hfa⟩ := paintOne_fields h first last v d
    have hstep := paintOne_in_range h first last v d hbpp hfl hlast
      (hrange 0 (by omega)).1 (by simpa using (hrange 0 (by omega)).2)
    rcases Nat.eq_zero_or_pos i0 with hz | hpos
    · -- the first iteration performs the write; the rest never touch the cell
      subst hz
      rw [paintLoop_buffer_untouched c (h.paintOne first last v d) first last
        v (d + 1) _ _ (by rw [hfb]; exact hbpp) ?later_lt ?later_ne]
      case later_lt =>
        intro i hi
        rw [hfb]
        have := hdlt (i + 1) (by omega)
        have hadd : d + 1 + i = d + (i + 1) := by omega
        rw [hadd]
        exact this
      case later_ne =>
        intro i hi
        rw [hfb]
        intro hcontra
        have hpt : hilbertPoint ((32 - h.bits_per_pixel) / 2) (d + 0) =
            hilbertPoint ((32 - h.bits_per_pixel) / 2) (d + 1 + i) :=
          Prod.ext hcontra.2 hcontra.1
        have hadd : d + 1 + i = d + (i + 1) := by omega
        rw [hadd] at hpt
        have := hinj 0 (i + 1) (by omega) (by omega) hpt
        omega
      rw [hstep]
      simp only [Nat.add_zero]
      exact paint_pixel_buffer_self h _ _ _
    · -- later iteration: the first write hits a different cell
      obtain ⟨j, hj⟩ : ∃ j, i0 = j + 1 := ⟨i0 - 1, by omega⟩
      subst hj
      have hadd : ∀ i : Nat, d + 1 + i = d + (i + 1) := by intro i; omega
      have hres := ih (h.paintOne first last v d) first last v (d + 1) j
        (by rw [hfb]; exact hbpp) hfl hlast ?rng ?inj (by omega)
      case rng =>
        intro i hi
        rw [hfb, hadd i]
        exact hrange (i + 1) (by omega)
      case inj =>
        intro i j2 hi hj2 hpt
        rw [hfb, hadd i, hadd j2] at hpt
        have := hinj (i + 1) (j2 + 1) (by omega) (by omega) hpt
        omega
      rw [hfb, hadd j] at hres
      rw [hres, hfm, hfa]
      have hne : ¬((hilbertPoint ((32 - h.bits_per_pixel) / 2) (d + (j + 1))).2 =
            (hilbertPoint ((32 - h.bits_per_pixel) / 2) d).2 ∧
          (hilbertPoint ((32 - h.bits_per_pixel) / 2) (d + (j + 1))).1 =
            (hilbertPoint ((32 - h.bits_per_pixel) / 2) d).1) := by
        intro hcontra
        have hpt : hilbertPoint ((32 - h.bits_per_pixel) / 2) (d + (j + 1)) =
            hilbertPoint ((32 - h.bits_per_pixel) / 2) (d + 0) := by
          refine Prod.ext hcontra.2 ?_
          simpa using hcontra.1
        simp only [Nat.add_zero] at hpt
        have := hinj (j + 1) 0 (by omega) (by omega) (by simpa using hpt)
        omega
      have hbuf : (h.paintOne first last v d).buffer
          (hilbertPoint ((32 - h.bits_per_pixel) / 2) (d + (j + 1))).2
          (hilbertPoint ((32 - h.bits_per_pixel) / 2) (d + (j + 1))).1 =
          h.buffer (hilbertPoint ((32 - h.bits_per_pixel) / 2) (d + (j + 1))).2
            (hilbertPoint ((32 - h.bits_per_pixel) / 2) (d + (j + 1))).1 := by
        rw [hstep]
        exact paint_pixel_buffer_other h _ _ _ _ _ hne
      rw [hbuf]

/-! ### The scaled paint value is exact integer arithmetic on CIDR input -/

/-- With an `i32` weight and an overlap count no larger than the pixel size,
the truncated quotient fits `i32`, so the saturating cast is the identity. -/
theorem tdiv_i32sat (v : Int) (C P : Nat) (hC : C ≤ P) (hP : 0 < P)
    (hlo : -(2 ^ 31) ≤ v) (hhi : v < 2 ^ 31) :
    i32sat (Int.tdiv (v * (C : Int)) (P : Int)) =
      Int.tdiv (v * (C : Int)) (P : Int) := by
  have habs : (Int.tdiv (v * (C : Int)) (P : Int)).natAbs =
      (v * (C : Int)).natAbs / P := by
    rw [Int.natAbs_tdiv, Int.natAbs_ofNat]
    rfl
  have hnum : (v * (C : Int)).natAbs = v.natAbs * C := by
    rw [Int.natAbs_mul, Int.natAbs_ofNat]
  have hvabs : v.natAbs ≤ 2 ^ 31 := by omega
  have hle : (Int.tdiv (v * (C : Int)) (P : Int)).natAbs ≤ v.natAbs := by
    rw [habs, hnum]
    calc v.natAbs * C / P ≤ v.natAbs * P / P :=
          Nat.div_le_div_right (Nat.mul_le_mul_left _ hC)
      _ = v.natAbs := Nat.mul_div_cancel _ hP
  apply i32sat_eq_of_range
  · omega
  · rcases le_or_lt 0 v with hv | hv
    · have ht : 0 ≤ Int.tdiv (v * (C : Int)) (P : Int) :=
        Int.tdiv_nonneg (by positivity) (by positivity)
      have hsmall : v.natAbs ≤ 2 ^ 31 - 1 := by omega
      omega
    · have h1 : (0 : Int) ≤ (-v) * (C : Int) := by
        apply mul_nonneg (by omega) (by positivity)
      have h2 : Int.tdiv ((-v) * (C : Int)) (P : Int) =
          -(Int.tdiv (v * (C : Int)) (P : Int)) := by
        rw [neg_mul, Int.neg_tdiv]
      have h3 : 0 ≤ Int.tdiv ((-v) * (C : Int)) (P : Int) :=
        Int.tdiv_nonneg h1 (by positivity)
      omega

/-- The `f64` product of an `i32` weight and a power-of-two overlap count is
exact, and the cast back to `i32` never saturates: the painted value is the
truncated exact quotient. -/
theorem scaled_value_exact (v : Int) (bpp j : Nat) (hj : j ≤ bpp)
    (hlo : -(2 ^ 31) ≤ v) (hhi : v < 2 ^ 31) :
    i32sat (Int.tdiv (f64round (v * ((2 ^ j : Nat) : Int)))
        ((2 ^ bpp : Nat) : Int)) =
      Int.tdiv (v * ((2 ^ j : Nat) : Int)) ((2 ^ bpp : Nat) : Int) := by
  have hvabs : v.natAbs ≤ 2 ^ 31 := by omega
  have hdvd : (2 : Int) ^ j ∣ v * ((2 ^ j : Nat) : Int) :=
    Dvd.intro_left v (by push_cast; ring)
  have habs : (v * ((2 ^ j : Nat) : Int)).natAbs < 2 ^ (53 + j) := by
    rw [Int.natAbs_mul, Int.natAbs_ofNat]
    calc v.natAbs * 2 ^ j ≤ 2 ^ 31 * 2 ^ j := Nat.mul_le_mul_right _ hvabs
      _ = 2 ^ (31 + j) := by rw [← pow_add]
      _ < 2 ^ (53 + j) := Nat.pow_lt_pow_right (by norm_num) (by omega)
  rw [f64round_eq_of_dvd j _ hdvd habs]
  exact tdiv_i32sat v (2 ^ j) (2 ^ bpp) (Nat.pow_le_pow_right (by norm_num) hj)
    (pow_pos (by norm_num) bpp) hlo hhi

/-! ### Geometry of a CIDR block against the pixel grid -/

theorem Ipv4Net.network_eq (n : Ipv4Net) :
    n.network = (n.addr / 2 ^ (32 - n.prefix_len)) * 2 ^ (32 - n.prefix_len) := by
  unfold Ipv4Net.network
  rw [Nat.shiftRight_eq_div_pow, Nat.shiftLeft_eq]

theorem Ipv4Net.broadcast_eq (n : Ipv4Net) :
    n.broadcast = n.network + 2 ^ (32 - n.prefix_len) - 1 := by
  unfold Ipv4Net.broadcast
  rw [one_shiftLeft_eq]

theorem Ipv4Net.block_dvd_network (n : Ipv4Net) :
    2 ^ (32 - n.prefix_len) ∣ n.network := by
  rw [Ipv4Net.network_eq]
  exact dvd_mul_left _ _

theorem Ipv4Net.network_le_broadcast (n : Ipv4Net) :
    n.network ≤ n.broadcast := by
  have hH : 0 < (2 : Nat) ^ (32 - n.prefix_len) := pow_pos (by norm_num) _
  rw [Ipv4Net.broadcast_eq]
  omega

theorem Ipv4Net.broadcast_lt (n : Ipv4Net) (haddr : n.addr < 2 ^ 32) :
    n.broadcast < 2 ^ 32 := by
  have hH : 0 < (2 : Nat) ^ (32 - n.prefix_len) := pow_pos (by norm_num) _
  have hA : n.addr / 2 ^ (32 - n.prefix_len) < 2 ^ (32 - (32 - n.prefix_len)) := by
    rw [Nat.div_lt_iff_lt_mul hH, ← pow_add]
    have he : 32 - (32 - n.prefix_len) + (32 - n.prefix_len) = 32 := by omega
    rw [he]
    exact haddr
  have hmul : (n.addr / 2 ^ (32 - n.prefix_len) + 1) * 2 ^ (32 - n.prefix_len) ≤
      2 ^ (32 - (32 - n.prefix_len)) * 2 ^ (32 - n.prefix_len) :=
    Nat.mul_le_mul_right _ hA
  have hpow : (2 : Nat) ^ (32 - (32 - n.prefix_len)) * 2 ^ (32 - n.prefix_len)
      = 2 ^ 32 := by
    rw [← pow_add]
    congr 1
    omega
  rw [Ipv4Net.broadcast_eq, Ipv4Net.network_eq]
  have hd : (n.addr / 2 ^ (32 - n.prefix_len) + 1) * 2 ^ (32 - n.prefix_len) =
      n.addr / 2 ^ (32 - n.prefix_len) * 2 ^ (32 - n.prefix_len) +
        2 ^ (32 - n.prefix_len) := by ring
  omega

/-- Overlap size of a CIDR block with a touched pixel: always the power of
two `2 ^ min (32 - prefix_len) bits_per_pixel` (the whole pixel when the
block is at least pixel-sized, the whole block otherwise). -/
theorem cidr_overlap_count (net : Ipv4Net) (bpp d : Nat)
    (hbpp : bpp ≤ 32) (hp : net.prefix_len ≤ 32) (haddr : net.addr < 2 ^ 32)
    (hd1 : net.network >>> bpp ≤ d) (hd2 : d ≤ net.broadcast >>> bpp) :
    min net.broadcast (d * 2 ^ bpp + 2 ^ bpp - 1) -
        max net.network (d * 2 ^ bpp) + 1 =
      2 ^ min (32 - net.prefix_len) bpp := by
  have hH : 0 < (2 : Nat) ^ (32 - net.prefix_len) := pow_pos (by norm_num) _
  have hP : 0 < (2 : Nat) ^ bpp := pow_pos (by norm_num) _
  have hlast_eq := Ipv4Net.broadcast_eq net
  have hHd := Ipv4Net.block_dvd_network net
  rw [Nat.shiftRight_eq_div_pow] at hd1 hd2
  rcases le_or_lt bpp (32 - net.prefix_len) with hcase | hcase
  · -- the block covers whole pixels: overlap is the full pixel
    have hPH : (2 : Nat) ^ bpp ∣ 2 ^ (32 - net.prefix_len) :=
      pow_dvd_pow 2 hcase
    have hPfirst : (2 : Nat) ^ bpp ∣ net.network := dvd_trans hPH hHd
    have hPlast1 : (2 : Nat) ^ bpp ∣ (net.broadcast + 1) := by
      have hsum : net.broadcast + 1 = net.network + 2 ^ (32 - net.prefix_len) := by
        omega
      rw [hsum]
      exact dvd_add hPfirst hPH
    obtain ⟨F, hF⟩ := hPfirst
    have hF' : net.network = F * 2 ^ bpp := by rw [hF]; ring
    obtain ⟨K, hK⟩ := hPlast1
    obtain ⟨k, rfl⟩ : ∃ k, K = k + 1 := by
      rcases Nat.eq_zero_or_pos K with h0 | hpos
      · rw [h0, Nat.mul_zero] at hK; omega
      · exact ⟨K - 1, by omega⟩
    have hms : (2 : Nat) ^ bpp * (k + 1) = 2 ^ bpp * k + 2 ^ bpp :=
      Nat.mul_succ _ _
    have hlastk : net.broadcast = k * 2 ^ bpp + (2 ^ bpp - 1) := by
      have hk' : 2 ^ bpp * k = k * 2 ^ bpp := Nat.mul_comm _ _
      omega
    have hlastdiv : net.broadcast / 2 ^ bpp = k := by
      rw [hlastk, Nat.add_comm, Nat.add_mul_div_right _ _ hP,
        Nat.div_eq_of_lt (by omega), Nat.zero_add]
    have hfirstdiv : net.network / 2 ^ bpp = F := by
      rw [hF, Nat.mul_div_cancel_left _ hP]
    rw [hfirstdiv] at hd1
    rw [hlastdiv] at hd2
    have hmax : max net.network (d * 2 ^ bpp) = d * 2 ^ bpp := by
      have hm : F * 2 ^ bpp ≤ d * 2 ^ bpp := Nat.mul_le_mul_right _ hd1
      omega
    have hmin : min net.broadcast (d * 2 ^ bpp + 2 ^ bpp - 1) =
        d * 2 ^ bpp + 2 ^ bpp - 1 := by
      have hm : d * 2 ^ bpp ≤ k * 2 ^ bpp := Nat.mul_le_mul_right _ hd2
      omega
    rw [hmax, hmin, min_eq_right hcase]
    omega
  · -- the block fits inside a single pixel: overlap is the whole block
    obtain ⟨Am, hAm⟩ := hHd
    have hsplit : (2 : Nat) ^ bpp =
        2 ^ (32 - net.prefix_len) * 2 ^ (bpp - (32 - net.prefix_len)) := by
      rw [← pow_add]
      congr 1
      omega
    have hM : 0 < (2 : Nat) ^ (bpp - (32 - net.prefix_len)) :=
      pow_pos (by norm_num) _
    obtain ⟨m, hm⟩ : ∃ m, (2 : Nat) ^ (bpp - (32 - net.prefix_len)) = m + 1 :=
      ⟨2 ^ (bpp - (32 - net.prefix_len)) - 1, by omega⟩
    have hmodsplit : net.network % 2 ^ bpp =
        2 ^ (32 - net.prefix_len) * (Am % 2 ^ (bpp - (32 - net.prefix_len))) := by
      rw [hAm, hsplit, Nat.mul_mod_mul_left]
    have hmbound : Am % 2 ^ (bpp - (32 - net.prefix_len)) ≤ m := by
      have := Nat.mod_lt Am hM
      omega
    have hrsmall : net.network % 2 ^ bpp + 2 ^ (32 - net.prefix_len) ≤
        2 ^ bpp := by
      have h1 : 2 ^ (32 - net.prefix_len) *
          (Am % 2 ^ (bpp - (32 - net.prefix_len))) ≤
          2 ^ (32 - net.prefix_len) * m :=
        Nat.mul_le_mul_left _ hmbound
      have h2 : (2 : Nat) ^ bpp =
          2 ^ (32 - net.prefix_len) * m + 2 ^ (32 - net.prefix_len) := by
        rw [hsplit, hm, Nat.mul_succ]
      omega
    have hdm : (net.network / 2 ^ bpp) * 2 ^ bpp + net.network % 2 ^ bpp =
        net.network := by
      rw [Nat.mul_comm]
      exact Nat.div_add_mod _ _
    have hlastdiv : net.broadcast / 2 ^ bpp = net.network / 2 ^ bpp := by
      have hform : net.broadcast = (net.network % 2 ^ bpp +
          2 ^ (32 - net.prefix_len) - 1) + (net.network / 2 ^ bpp) * 2 ^ bpp := by
        omega
      rw [hform, Nat.add_mul_div_right _ _ hP, Nat.div_eq_of_lt (by omega),
        Nat.zero_add]
    have hdeq : d = net.network / 2 ^ bpp := by
      rw [hlastdiv] at hd2
      omega
    subst hdeq
    have hmax : max net.network (net.network / 2 ^ bpp * 2 ^ bpp) =
        net.network := by
      omega
    have hmin : min net.broadcast
        (net.network / 2 ^ bpp * 2 ^ bpp + 2 ^ bpp - 1) = net.broadcast := by
      omega
    rw [hmax, hmin, min_eq_left (by omega : 32 - net.prefix_len ≤ bpp)]
    omega

theorem four_pow_order (bpp : Nat) (hbpp : bpp ≤ 32) (heven : 2 ∣ bpp) :
    (4 : Nat) ^ ((32 - bpp) / 2) = 2 ^ (32 - bpp) := by
  have h1 : (4 : Nat) ^ ((32 - bpp) / 2) = 2 ^ (2 * ((32 - bpp) / 2)) := by
    rw [pow_mul]
    norm_num
  rw [h1]
  congr 1
  omega

/-- `paint_address` always performs exactly one `paint_pixel` write, at the
Hilbert point of the address's pixel distance. -/
theorem paint_address_eq (h : Heatmap) (addr : Nat) (v : Int) :
    h.paint_address addr v =
      h.paint_pixel
        (hilbertPoint ((32 - h.bits_per_pixel) / 2) (addr >>> h.bits_per_pixel)).1
        (hilbertPoint ((32 - h.bits_per_pixel) / 2) (addr >>> h.bits_per_pixel)).2
        (match h.value_mode with
          | .Categorical | .Raw => v
          | .Scaled =>
            i32sat (Int.tdiv (f64round v) ((1 <<< h.bits_per_pixel : Nat) : Int))) := by
  unfold Heatmap.paint_address Heatmap.ip_to_xy
  dsimp only
  rw [hilbert_d2xy_eq_point]

/-- Buffer effect of `paint_cidr_range` at any touched pixel distance, for a
valid granularity and CIDR block: exactly one write of `cidrPaintValue`. -/
theorem paint_cidr_range_buffer (h : Heatmap) (net : Ipv4Net) (v : Int)
    (d : Nat)
    (hbpp : h.bits_per_pixel ≤ 32) (heven : 2 ∣ h.bits_per_pixel)
    (haddr : net.addr < 2 ^ 32) (hp : net.prefix_len ≤ 32)
    (hd1 : net.network >>> h.bits_per_pixel ≤ d)
    (hd2 : d ≤ net.broadcast >>> h.bits_per_pixel) :
    h.ip_to_xy (d * 2 ^ h.bits_per_pixel) =
      some (hilbertPoint ((32 - h.bits_per_pixel) / 2) d) ∧
    (h.paint_cidr_range net v).buffer
        (hilbertPoint ((32 - h.bits_per_pixel) / 2) d).2
        (hilbertPoint ((32 - h.bits_per_pixel) / 2) d).1 =
      (if h.accumulate then
        h.buffer (hilbertPoint ((32 - h.bits_per_pixel) / 2) d).2
            (hilbertPoint ((32 - h.bits_per_pixel) / 2) d).1 +
          cidrPaintValue h.value_mode h.bits_per_pixel net.network
            net.broadcast v d
      else
        cidrPaintValue h.value_mode h.bits_per_pixel net.network
          net.broadcast v d) := by
  have hP : 0 < (2 : Nat) ^ h.bits_per_pixel := pow_pos (by norm_num) _
  have hfl := Ipv4Net.network_le_broadcast net
  have hlast := Ipv4Net.broadcast_lt net haddr
  have hlastD_lt : net.broadcast >>> h.bits_per_pixel <
      2 ^ (32 - h.bits_per_pixel) := by
    rw [Nat.shiftRight_eq_div_pow, Nat.div_lt_iff_lt_mul hP, ← pow_add]
    have he : 32 - h.bits_per_pixel + h.bits_per_pixel = 32 := by omega
    rw [he]
    exact hlast
  have hdlt : d < 2 ^ (32 - h.bits_per_pixel) := by omega
  have hdmul : d * 2 ^ h.bits_per_pixel < 2 ^ 32 := by
    calc d * 2 ^ h.bits_per_pixel
        < 2 ^ (32 - h.bits_per_pixel) * 2 ^ h.bits_per_pixel :=
          (Nat.mul_lt_mul_right hP).mpr hdlt
      _ = 2 ^ 32 := by
          rw [← pow_add]
          congr 1
          omega
  constructor
  · have hip := ip_to_xy_pixel_first h d hbpp hdlt
    rw [Nat.shiftLeft_eq, Nat.mod_eq_of_lt hdmul] at hip
    exact hip
  · unfold Heatmap.paint_cidr_range
    dsimp only
    have hcount : d = net.network >>> h.bits_per_pixel +
        (d - net.network >>> h.bits_per_pixel) := by omega
    have hres := paintLoop_buffer_write
      (net.broadcast >>> h.bits_per_pixel + 1 - net.network >>> h.bits_per_pixel)
      h net.network net.broadcast v (net.network >>> h.bits_per_pixel)
      (d - net.network >>> h.bits_per_pixel) hbpp hfl hlast
      ?rng ?inj (by omega)
    case rng =>
      intro i hi
      omega
    case inj =>
      intro i j hi hj hpt
      have hb1 : net.network >>> h.bits_per_pixel + i <
          4 ^ ((32 - h.bits_per_pixel) / 2) := by
        rw [four_pow_order h.bits_per_pixel hbpp heven]
        omega
      have hb2 : net.network >>> h.bits_per_pixel + j <
          4 ^ ((32 - h.bits_per_pixel) / 2) := by
        rw [four_pow_order h.bits_per_pixel hbpp heven]
        omega
      have := hilbertPoint_inj ((32 - h.bits_per_pixel) / 2) hb1 hb2 hpt
      omega
    rw [← hcount] at hres
    exact hres

/-- **C3.** In `Scaled` mode, `paint_address` with weight `V` writes
`floor(V / P)` to the target cell (`P = 2^bits_per_pixel`, the division being
the truncation toward zero of the exact `f64` quotient, `Int.tdiv`), and
`paint_cidr_range` writes to each touched pixel distance `d` the value
`floor(V × overlapCount / P)` with
`overlapCount = min(last, d·P + P − 1) − max(first, d·P) + 1`, the number of
addresses of the range landing in that pixel.  In `Categorical` and `Raw`
modes both operations write `V` unchanged, with no apportioning.  ("Writes"
means the cell receives that value, or has it added when `accumulate` is
set.)  Weights are `i32` (`−2^31 ≤ V < 2^31`); the CIDR parts assume a valid
granularity (`bits_per_pixel` even, `≤ 32`) and a valid block
(`addr < 2^32`, `prefix_len ≤ 32`). -/
theorem paint_value_modes :
    (∀ (h : Heatmap) (addr : Nat) (v : Int),
      h.value_mode = ValueMode.Scaled →
      -(2 ^ 31) ≤ v → v < 2 ^ 31 →
      ∃ x y : Nat, h.ip_to_xy addr = some (x, y) ∧
        (h.paint_address addr v).buffer y x =
          (if h.accumulate then
            h.buffer y x + Int.tdiv v ((2 ^ h.bits_per_pixel : Nat) : Int)
          else Int.tdiv v ((2 ^ h.bits_per_pixel : Nat) : Int))) ∧
    (∀ (h : Heatmap) (addr : Nat) (v : Int),
      h.value_mode ≠ ValueMode.Scaled →
      ∃ x y : Nat, h.ip_to_xy addr = some (x, y) ∧
        (h.paint_address addr v).buffer y x =
          (if h.accumulate then h.buffer y x + v else v)) ∧
    (∀ (h : Heatmap) (net : Ipv4Net) (v : Int) (d : Nat),
      h.value_mode = ValueMode.Scaled →
      h.bits_per_pixel ≤ 32 → 2 ∣ h.bits_per_pixel →
      net.addr < 2 ^ 32 → net.prefix_len ≤ 32 →
      -(2 ^ 31) ≤ v → v < 2 ^ 31 →
      net.network >>> h.bits_per_pixel ≤ d →
      d ≤ net.broadcast >>> h.bits_per_pixel →
      ∃ x y : Nat, h.ip_to_xy (d * 2 ^ h.bits_per_pixel) = some (x, y) ∧
        (h.paint_cidr_range net v).buffer y x =
          (if h.accumulate then
            h.buffer y x +
              Int.tdiv (v * ((min net.broadcast
                  (d * 2 ^ h.bits_per_pixel + 2 ^ h.bits_per_pixel - 1) -
                max net.network (d * 2 ^ h.bits_per_pixel) + 1 : Nat) : Int))
                ((2 ^ h.bits_per_pixel : Nat) : Int)
          else
            Int.tdiv (v * ((min net.broadcast
                (d * 2 ^ h.bits_per_pixel + 2 ^ h.bits_per_pixel - 1) -
              max net.network (d * 2 ^ h.bits_per_pixel) + 1 : Nat) : Int))
              ((2 ^ h.bits_per_pixel : Nat) : Int))) ∧
    (∀ (h : Heatmap) (net : Ipv4Net) (v : Int) (d : Nat),
      h.value_mode ≠ ValueMode.Scaled →
      h.bits_per_pixel ≤ 32 → 2 ∣ h.bits_per_pixel →
      net.addr < 2 ^ 32 → net.prefix_len ≤ 32 →
      net.network >>> h.bits_per_pixel ≤ d →
      d ≤ net.broadcast >>> h.bits_per_pixel →
      ∃ x y : Nat, h.ip_to_xy (d * 2 ^ h.bits_per_pixel) = some (x, y) ∧
        (h.paint_cidr_range net v).buffer y x =
          (if h.accumulate then h.buffer y x + v else v)) := by
  have habs53 : ∀ v : Int, -(2 ^ 31) ≤ v → v < 2 ^ 31 → v.natAbs < 2 ^ 53 := by
    intro v hlo hhi
    have hlit : (2 : Nat) ^ 31 < 2 ^ 53 := by norm_num
    omega
  refine ⟨?addrScaled, ?addrRaw, ?cidrScaled, ?cidrRaw⟩
  case addrScaled =>
    intro h addr v hm hlo hhi
    refine ⟨_, _, by
      unfold Heatmap.ip_to_xy
      dsimp only
      rw [hilbert_d2xy_eq_point], ?_⟩
    rw [paint_address_eq, hm]
    have hval : i32sat (Int.tdiv (f64round v)
        ((1 <<< h.bits_per_pixel : Nat) : Int)) =
        Int.tdiv v ((2 ^ h.bits_per_pixel : Nat) : Int) := by
      rw [f64round_eq_of_small v (habs53 v hlo hhi), one_shiftLeft_eq]
      have h1 := tdiv_i32sat v 1 (2 ^ h.bits_per_pixel)
        (Nat.one_le_two_pow) (pow_pos (by norm_num) _) hlo hhi
      have hv1 : v * ((1 : Nat) : Int) = v := by push_cast; ring
      rw [hv1] at h1
      exact h1
    rw [hval]
    exact paint_pixel_buffer_self h _ _ _
  case addrRaw =>
    intro h addr v hm
    refine ⟨_, _, by
      unfold Heatmap.ip_to_xy
      dsimp only
      rw [hilbert_d2xy_eq_point], ?_⟩
    rw [paint_address_eq]
    rcases hvm : h.value_mode with _ | _ | _
    · exact paint_pixel_buffer_self h _ _ _
    · exact paint_pixel_buffer_self h _ _ _
    · exact absurd hvm hm
  case cidrScaled =>
    intro h net v d hm hbpp heven haddr hp hlo hhi hd1 hd2
    obtain ⟨hip, hbuf⟩ :=
      paint_cidr_range_buffer h net v d hbpp heven haddr hp hd1 hd2
    refine ⟨(hilbertPoint ((32 - h.bits_per_pixel) / 2) d).1,
      (hilbertPoint ((32 - h.bits_per_pixel) / 2) d).2, hip, ?_⟩
    rw [hbuf, hm]
    have hoc := cidr_overlap_count net h.bits_per_pixel d hbpp hp haddr hd1 hd2
    have hval : cidrPaintValue ValueMode.Scaled h.bits_per_pixel net.network
        net.broadcast v d =
        Int.tdiv (v * ((min net.broadcast
            (d * 2 ^ h.bits_per_pixel + 2 ^ h.bits_per_pixel - 1) -
          max net.network (d * 2 ^ h.bits_per_pixel) + 1 : Nat) : Int))
          ((2 ^ h.bits_per_pixel : Nat) : Int) := by
      show i32sat (Int.tdiv (f64round (v * ((min net.broadcast
          (d * 2 ^ h.bits_per_pixel + 2 ^ h.bits_per_pixel - 1) -
        max net.network (d * 2 ^ h.bits_per_pixel) + 1 : Nat) : Int)))
          ((2 ^ h.bits_per_pixel : Nat) : Int)) = _
      rw [hoc]
      exact scaled_value_exact v h.bits_per_pixel
        (min (32 - net.prefix_len) h.bits_per_pixel) (min_le_right _ _) hlo hhi
    rw [hval]
  case cidrRaw =>
    intro h net v d hm hbpp heven haddr hp hd1 hd2
    obtain ⟨hip, hbuf⟩ :=
      paint_cidr_range_buffer h net v d hbpp heven haddr hp hd1 hd2
    refine ⟨(hilbertPoint ((32 - h.bits_per_pixel) / 2) d).1,
      (hilbertPoint ((32 - h.bits_per_pixel) / 2) d).2, hip, ?_⟩
    rw [hbuf]
    rcases hvm : h.value_mode with _ | _ | _
    · rfl
    · rfl
    · exact absurd hvm hm

/-- Witness for `paint_value_modes`: scaled mode at `bits_per_pixel = 32`
(one pixel covering the whole space), block `0.0.0.0/0`, weight 5. -/
theorem paint_value_modes_witness :
    ∃ x y : Nat,
      (Heatmap.new DomainType.Linear none none true 32 "magma"
        ValueMode.Scaled).ip_to_xy (0 * 2 ^ 32) = some (x, y) ∧
      ((Heatmap.new DomainType.Linear none none true 32 "magma"
          ValueMode.Scaled).paint_cidr_range ⟨0, 0⟩ 5).buffer y x =
        (if (Heatmap.new DomainType.Linear none none true 32 "magma"
            ValueMode.Scaled).accumulate then
          (Heatmap.new DomainType.Linear none none true 32 "magma"
              ValueMode.Scaled).buffer y x +
            Int.tdiv (5 * ((min (Ipv4Net.broadcast ⟨0, 0⟩)
                (0 * 2 ^ 32 + 2 ^ 32 - 1) -
              max (Ipv4Net.network ⟨0, 0⟩) (0 * 2 ^ 32) + 1 : Nat) : Int))
              ((2 ^ 32 : Nat) : Int)
        else
          Int.tdiv (5 * ((min (Ipv4Net.broadcast ⟨0, 0⟩)
              (0 * 2 ^ 32 + 2 ^ 32 - 1) -
            max (Ipv4Net.network ⟨0, 0⟩) (0 * 2 ^ 32) + 1 : Nat) : Int))
            ((2 ^ 32 : Nat) : Int)) :=
  paint_value_modes.2.2.1
    (Heatmap.new DomainType.Linear none none true 32 "magma" ValueMode.Scaled)
    ⟨0, 0⟩ 5 0 rfl (by decide) (by decide) (by norm_num) (by norm_num)
    (by norm_num) (by norm_num) (by decide) (by decide)

/-! ## `src/scale.rs` — the value-to-intensity domain

`f64` bounds and inputs are modelled by exact rationals (every comparison the
code performs is exact on floats; the computed intensities live in `ℝ`, with
`ln` as `Real.log`). -/

/-- `ScaleDomain` from `src/scale.rs`. -/
structure ScaleDomain where
  domain_type : DomainType
  min_value : ℚ
  max_value : ℚ
deriving DecidableEq

/-- `ScaleDomain::new` (`src/scale.rs` lines 41–56): fails iff
`max_value <= min_value`. -/
def ScaleDomain.new (domain_type : DomainType) (min_value max_value : ℚ) :
    Except String ScaleDomain :=
  if max_value ≤ min_value then
    .error
      "Min value must be greater than 0 and max value must be greater than min value"
  else
    .ok ⟨domain_type, min_value, max_value⟩

/-- `ScaleDomain::scale_linear` (`src/scale.rs` lines 65–73). -/
def ScaleDomain.scale_linear (s : ScaleDomain) (value : ℚ) : Option ℚ :=
  if value ≤ s.min_value then none
  else if s.max_value ≤ value then some 1
  else some ((value - s.min_value) / (s.max_value - s.min_value))

/-- `ScaleDomain::scale_logarithmic` (`src/scale.rs` lines 79–90):
log1p-style, `ln(offset + 1) / ln(range + 1)`. -/
noncomputable def ScaleDomain.scale_logarithmic (s : ScaleDomain) (value : ℚ) :
    Option ℝ :=
  if value ≤ s.min_value then none
  else if s.max_value ≤ value then some 1
  else some (Real.log ((value : ℝ) - (s.min_value : ℝ) + 1) /
    Real.log ((s.max_value : ℝ) - (s.min_value : ℝ) + 1))

/-- `ScaleDomain::scale` (`src/scale.rs` lines 58–63): dispatch on the domain
type. -/
noncomputable def ScaleDomain.scale (s : ScaleDomain) (value : ℚ) : Option ℝ :=
  match s.domain_type with
  | .Linear => (s.scale_linear value).map (fun q => (q : ℝ))
  | .Logarithmic => s.scale_logarithmic value

/-- **C4.** `ScaleDomain` construction fails exactly when `max ≤ min`; for
every successfully constructed domain (both kinds) and every value:
`scale value` is no-value iff `value ≤ min`; `scale value = 1.0` for every
`value ≥ max`; and on `(min, max)` the output lies in `(0, 1)` and is
strictly increasing. -/
theorem scale_domain_spec :
    (∀ (t : DomainType) (mn mx : ℚ),
      (∃ s, ScaleDomain.new t mn mx = .ok s) ↔ mn < mx) ∧
    (∀ (t : DomainType) (mn mx : ℚ) (s : ScaleDomain),
      ScaleDomain.new t mn mx = .ok s →
      (∀ v : ℚ, s.scale v = none ↔ v ≤ mn) ∧
      (∀ v : ℚ, mx ≤ v → s.scale v = some 1) ∧
      (∀ v : ℚ, mn < v → v < mx → ∃ r : ℝ, s.scale v = some r ∧ 0 < r ∧ r < 1) ∧
      (∀ v₁ v₂ : ℚ, mn < v₁ → v₁ < v₂ → v₂ < mx →
        ∃ r₁ r₂ : ℝ, s.scale v₁ = some r₁ ∧ s.scale v₂ = some r₂ ∧ r₁ < r₂)) := by
  constructor
  · intro t mn mx
    unfold ScaleDomain.new
    split
    · next hle =>
      constructor
      · rintro ⟨s, hs⟩
        exact absurd hs (by simp)
      · intro hlt
        exact absurd hlt (not_lt.mpr hle)
    · next hle =>
      exact ⟨fun _ => not_le.mp hle, fun _ => ⟨_, rfl⟩⟩
  · intro t mn mx s hs
    have hlt : mn < mx := by
      unfold ScaleDomain.new at hs
      split at hs
      · exact absurd hs (by simp)
      · next hle => exact not_le.mp hle
    have hsval : s = ⟨t, mn, mx⟩ := by
      unfold ScaleDomain.new at hs
      split at hs
      · exact absurd hs (by simp)
      · exact (Except.ok.inj hs).symm
    subst hsval
    have hlogpos : 0 < Real.log ((mx : ℝ) - (mn : ℝ) + 1) := by
      apply Real.log_pos
      have : (mn : ℝ) < (mx : ℝ) := by exact_mod_cast hlt
      linarith
    refine ⟨?_, ?_, ?_, ?_⟩
    · intro v
      cases t <;>
        simp only [ScaleDomain.scale, ScaleDomain.scale_linear,
          ScaleDomain.scale_logarithmic]
      · constructor
        · intro hnone
          by_contra hv
          rw [if_neg hv] at hnone
          split at hnone <;> simp at hnone
        · intro hv
          rw [if_pos hv]
          rfl
      · constructor
        · intro hnone
          by_contra hv
          rw [if_neg hv] at hnone
          split at hnone <;> simp at hnone
        · intro hv
          rw [if_pos hv]
    · intro v hv
      cases t <;>
        simp only [ScaleDomain.scale, ScaleDomain.scale_linear,
          ScaleDomain.scale_logarithmic]
      · rw [if_neg (by exact fun hc => absurd (le_trans hv hc) (not_le.mpr hlt)),
          if_pos hv]
        simp
      · rw [if_neg (by exact fun hc => absurd (le_trans hv hc) (not_le.mpr hlt)),
          if_pos hv]
    · intro v hv1 hv2
      have hn1 : ¬(v ≤ mn) := not_le.mpr hv1
      have hn2 : ¬(mx ≤ v) := not_le.mpr hv2
      cases t <;>
        simp only [ScaleDomain.scale, ScaleDomain.scale_linear,
          ScaleDomain.scale_logarithmic]
      · rw [if_neg hn1, if_neg hn2]
        refine ⟨_, rfl, ?_, ?_⟩
        · have hq : (0 : ℚ) < (v - mn) / (mx - mn) :=
            div_pos (by linarith) (by linarith)
          dsimp only
          exact_mod_cast hq
        · have hq : (v - mn) / (mx - mn) < 1 :=
            (div_lt_one (by linarith)).mpr (by linarith)
          dsimp only
          exact_mod_cast hq
      · rw [if_neg hn1, if_neg hn2]
        refine ⟨_, rfl, ?_, ?_⟩
        · apply div_pos ?_ hlogpos
          apply Real.log_pos
          have : (mn : ℝ) < (v : ℝ) := by exact_mod_cast hv1
          linarith
        · rw [div_lt_one hlogpos]
          apply Real.log_lt_log
          · have : (mn : ℝ) < (v : ℝ) := by exact_mod_cast hv1
            linarith
          · have : (v : ℝ) < (mx : ℝ) := by exact_mod_cast hv2
            linarith
    · intro v₁ v₂ h1 h2 h3
      have hn11 : ¬(v₁ ≤ mn) := not_le.mpr h1
      have hn12 : ¬(mx ≤ v₁) := not_le.mpr (lt_trans h2 h3)
      have hn21 : ¬(v₂ ≤ mn) := not_le.mpr (lt_trans h1 h2)
      have hn22 : ¬(mx ≤ v₂) := not_le.mpr h3
      cases t <;>
        simp only [ScaleDomain.scale, ScaleDomain.scale_linear,
          ScaleDomain.scale_logarithmic]
      · rw [if_neg hn11, if_neg hn12, if_neg hn21, if_neg hn22]
        refine ⟨_, _, rfl, rfl, ?_⟩
        have hq : (v₁ - mn) / (mx - mn) < (v₂ - mn) / (mx - mn) :=
          (div_lt_div_right (by linarith)).mpr (by linarith)
        dsimp only
        exact_mod_cast hq
      · rw [if_neg hn11, if_neg hn12, if_neg hn21, if_neg hn22]
        refine ⟨_, _, rfl, rfl, ?_⟩
        apply (div_lt_div_right hlogpos).mpr
        apply Real.log_lt_log
        · have : (mn : ℝ) < (v₁ : ℝ) := by exact_mod_cast h1
          linarith
        · have : (v₁ : ℝ) < (v₂ : ℝ) := by exact_mod_cast h2
          linarith

/-- Witness for `scale_domain_spec`: the linear domain `(0, 1)` is strictly
increasing between `1/4` and `1/2`. -/
theorem scale_domain_spec_witness :
    ∃ r₁ r₂ : ℝ,
      (ScaleDomain.mk DomainType.Linear 0 1).scale (1 / 4) = some r₁ ∧
      (ScaleDomain.mk DomainType.Linear 0 1).scale (1 / 2) = some r₂ ∧
      r₁ < r₂ :=
  (scale_domain_spec.2 DomainType.Linear 0 1 ⟨DomainType.Linear, 0, 1⟩
    (by unfold ScaleDomain.new; rw [if_neg (by norm_num)])).2.2.2
    (1 / 4) (1 / 2) (by norm_num) (by norm_num) (by norm_num)

/-! ## `src/lib.rs` — input processing (`process_input_from_reader`)

The tokenisers of the external crates/std are modelled concretely:
`parseU32` models `str::parse::<u32>` (only ever invoked on non-empty
all-digit tokens, where it succeeds exactly on values below `2^32`),
`parseIpv4` models `Ipv4Addr::from_str` (four dot-separated decimal octets,
each `0..=255`, at most three digits, no leading zeros), `parseIpv4Net`
models `Ipv4Net::from_str` of the `ipnet` crate (`address/prefix_len`,
`prefix_len ≤ 32`), and `parseI32` models `str::parse::<i32>`.  The `anyhow`
error strings are modelled by the structured `ProcError`, carrying exactly
the data the source interpolates into each message; `log::warn!` output is
collected as `(line_number + 1, token)` pairs. -/

/-- Split a character list at every separator, keeping empty pieces — the
semantics of Rust's `str::split` with a `char` or predicate pattern.
(Implemented over `List Char` so that concrete inputs evaluate.) -/
def splitAux (p : Char → Bool) : List Char → List Char → List (List Char)
  | [], acc => [acc.reverse]
  | c :: cs, acc =>
    if p c then acc.reverse :: splitAux p cs []
    else splitAux p cs (c :: acc)

def splitStr (s : String) (p : Char → Bool) : List String :=
  (splitAux p s.data []).map (fun l => String.mk l)

def splitChar (s : String) (c : Char) : List String :=
  splitStr s (fun d => d = c)

/-- Rust `str::contains(char)`. -/
def containsChar (s : String) (c : Char) : Bool := s.data.contains c

/-- Rust `chars().all(|c| c.is_ascii_digit())`. -/
def allDigits (s : String) : Bool := s.data.all Char.isDigit

def digitsToNat : List Char → Nat → Nat
  | [], acc => acc
  | c :: cs, acc => digitsToNat cs (acc * 10 + (c.toNat - '0'.toNat))

/-- Decimal value of a non-empty all-digit token. -/
def strToNat? (s : String) : Option Nat :=
  if s.data ≠ [] ∧ s.data.all Char.isDigit = true then
    some (digitsToNat s.data 0)
  else none

/-- One decimal octet of a dotted-quad address: 1–3 digits, no leading zero,
value `≤ 255`. -/
def parseOctet (s : String) : Option Nat :=
  if s.data.length = 0 ∨ 3 < s.data.length then none
  else if ¬(s.data.all Char.isDigit = true) then none
  else if 1 < s.data.length ∧ s.data.headD ' ' = '0' then none
  else if digitsToNat s.data 0 ≤ 255 then some (digitsToNat s.data 0)
  else none

/-- Model of `std::net::Ipv4Addr::from_str`. -/
def parseIpv4 (s : String) : Option Nat :=
  match splitChar s '.' with
  | [a, b, c, d] =>
    match parseOctet a, parseOctet b, parseOctet c, parseOctet d with
    | some x, some y, some z, some w =>
      some (((x * 256 + y) * 256 + z) * 256 + w)
    | _, _, _, _ => none
  | _ => none

/-- Model of `str::parse::<u32>` on all-digit tokens. -/
def parseU32 (s : String) : Option Nat :=
  match strToNat? s with
  | some n => if n < 2 ^ 32 then some n else none
  | none => none

/-- Model of the prefix-length part of `ipnet::Ipv4Net::from_str`. -/
def parsePrefixLen (s : String) : Option Nat :=
  match strToNat? s with
  | some n => if n ≤ 32 then some n else none
  | none => none

/-- Model of `ipnet::Ipv4Net::from_str`. -/
def parseIpv4Net (s : String) : Option Ipv4Net :=
  match splitChar s '/' with
  | [a, p] =>
    match parseIpv4 a, parsePrefixLen p with
    | some addr, some pl => some ⟨addr, pl⟩
    | _, _ => none
  | _ => none

/-- Model of `str::parse::<i32>` (used with `.unwrap_or(1)` for the value
column): optional sign, then digits, within the `i32` range. -/
def parseI32 (s : String) : Option Int :=
  let core := fun (t : List Char) (sign : Int) =>
    if t ≠ [] ∧ t.all Char.isDigit = true then
      let v : Int := sign * digitsToNat t 0
      if -(2 ^ 31) ≤ v ∧ v < 2 ^ 31 then some v else none
    else none
  match s.data with
  | '-' :: t => core t (-1)
  | '+' :: t => core t 1
  | t => core t 1

/-- The token split of `process_input_from_reader` (`src/lib.rs` lines
231–235): split on comma or whitespace, trim, drop empties.  (The `.trim()`
is a no-op here: both separator classes are split characters, so no piece
contains whitespace; Rust's Unicode whitespace class is modelled by the
ASCII one.) -/
def splitLine (line : String) : List String :=
  ((splitAux (fun c => c = ',' || c.isWhitespace) line.data []).filter
    (fun l => !l.isEmpty)).map (fun l => String.mk l)

/-- The fatal errors `process_input_from_reader` can produce, carrying
exactly the data the source interpolates into the `anyhow` context message:
`"Invalid IP as integer"` carries nothing; `"Invalid IP address on line
{line_num + 1}: {ip_str}"` carries the 1-based line number and the token. -/
inductive ProcError
  | invalidIpAsInteger
  | invalidIpAddress (line_number : Nat) (token : String)
deriving DecidableEq

/-- Whether a fatal error carries the 1-based line number and offending
token. -/
def ProcError.has_line_context : ProcError → Bool
  | .invalidIpAddress _ _ => true
  | .invalidIpAsInteger => false

/-- One iteration of the line loop of `process_input_from_reader`
(`src/lib.rs` lines 229–279), for the line with 0-based index `line_num`.
Returns the updated heatmap and the warnings logged for this line. -/
def Heatmap.processLine (h : Heatmap) (line_num : Nat) (line : String) :
    Except ProcError (Heatmap × List (Nat × String)) :=
  match splitLine line with
  | [] => .ok (h, [])
  | ip_str :: rest =>
    let value : Int :=
      match rest with
      | [] => 1
      | v :: _ => (parseI32 v).getD 1
    if containsChar ip_str '/' then
      match parseIpv4Net ip_str with
      | some cidr => .ok (h.paint_cidr_range cidr value, [])
      | none => .ok (h, [(line_num + 1, ip_str)])
    else
      if allDigits ip_str then
        match parseU32 ip_str with
        | some ip => .ok (h.paint_address ip value, [])
        | none => .error .invalidIpAsInteger
      else
        match parseIpv4 ip_str with
        | some addr => .ok (h.paint_address addr value, [])
        | none => .error (.invalidIpAddress (line_num + 1) ip_str)

/-- The enumerated line loop of `process_input_from_reader`, starting at
0-based line index `line_num`; stops at the first fatal error. -/
def Heatmap.process_go (h : Heatmap) (line_num : Nat) :
    List String → Except ProcError (Heatmap × List (Nat × String))
  | [] => .ok (h, [])
  | line :: rest =>
    match h.processLine line_num line with
    | .error e => .error e
    | .ok (h1, ws) =>
      match Heatmap.process_go h1 (line_num + 1) rest with
      | .error e => .error e
      | .ok (h2, ws2) => .ok (h2, ws ++ ws2)

/-- `Heatmap::process_input_from_reader` on the list of input lines. -/
def Heatmap.process_input_from_reader (h : Heatmap) (lines : List String) :
    Except ProcError (Heatmap × List (Nat × String)) :=
  h.process_go 0 lines

/-- `Heatmap::process_input_from_string` (lines of the input string; empty
lines are skipped by the loop, so the trailing-newline behaviour of
`BufRead::lines` is immaterial). -/
def Heatmap.process_input_from_string (h : Heatmap) (input : String) :
    Except ProcError (Heatmap × List (Nat × String)) :=
  h.process_input_from_reader (splitChar input '\n')

theorem process_go_cons (h : Heatmap) (n : Nat) (line : String)
    (rest : List String) :
    h.process_go n (line :: rest) =
      match h.processLine n line with
      | Except.error e => Except.error e
      | Except.ok (h1, ws) =>
        match Heatmap.process_go h1 (n + 1) rest with
        | Except.error e => Except.error e
        | Except.ok (h2, ws2) => Except.ok (h2, ws ++ ws2) := rfl

theorem processLine_bad_cidr (h : Heatmap) (line_num : Nat)
    (line ip_str : String) (toks : List String)
    (hsplit : splitLine line = ip_str :: toks)
    (hcont : containsChar ip_str '/' = true)
    (hnet : parseIpv4Net ip_str = none) :
    h.processLine line_num line = .ok (h, [(line_num + 1, ip_str)]) := by
  simp only [Heatmap.processLine, hsplit, hcont, hnet, if_true]

theorem processLine_bad_addr (h : Heatmap) (line_num : Nat)
    (line ip_str : String) (toks : List String)
    (hsplit : splitLine line = ip_str :: toks)
    (hcont : containsChar ip_str '/' = false)
    (hdig : allDigits ip_str = false)
    (haddr : parseIpv4 ip_str = none) :
    h.processLine line_num line =
      .error (.invalidIpAddress (line_num + 1) ip_str) := by
  simp only [Heatmap.processLine, hsplit, hcont, hdig, haddr,
    Bool.false_eq_true, if_false]

theorem processLine_bad_integer (h : Heatmap) (line_num : Nat)
    (line ip_str : String) (toks : List String)
    (hsplit : splitLine line = ip_str :: toks)
    (hcont : containsChar ip_str '/' = false)
    (hdig : allDigits ip_str = true)
    (hu32 : parseU32 ip_str = none) :
    h.processLine line_num line = .error .invalidIpAsInteger := by
  simp only [Heatmap.processLine, hsplit, hcont, hdig, hu32,
    Bool.false_eq_true, if_false, if_true]

/-- **C6 (amended).** During input processing: a line whose first token
contains `/` but fails to parse as a CIDR range is skipped with a non-fatal
warning carrying the 1-based line number and the token, and processing
continues with the next line from the same state; a line whose first token
is a dotted plain address that fails to parse aborts the whole run with a
fatal error carrying the 1-based line number and the offending token; a line
whose first token is a bare integer that fails to parse (all-digit token not
below `2^32`) also aborts the whole run, but its fatal error carries only
the generic message `"Invalid IP as integer"` — no line number, no token. -/
theorem parse_failure_policy :
    (∀ (h : Heatmap) (line_num : Nat) (line : String) (rest : List String)
        (ip_str : String) (toks : List String),
      splitLine line = ip_str :: toks →
      containsChar ip_str '/' = true →
      parseIpv4Net ip_str = none →
      h.process_go line_num (line :: rest) =
        (match Heatmap.process_go h (line_num + 1) rest with
          | .error e => .error e
          | .ok (h2, ws2) => .ok (h2, (line_num + 1, ip_str) :: ws2))) ∧
    (∀ (h : Heatmap) (line_num : Nat) (line : String) (rest : List String)
        (ip_str : String) (toks : List String),
      splitLine line = ip_str :: toks →
      containsChar ip_str '/' = false →
      allDigits ip_str = false →
      parseIpv4 ip_str = none →
      h.process_go line_num (line :: rest) =
        .error (.invalidIpAddress (line_num + 1) ip_str)) ∧
    (∀ (h : Heatmap) (line_num : Nat) (line : String) (rest : List String)
        (ip_str : String) (toks : List String),
      splitLine line = ip_str :: toks →
      containsChar ip_str '/' = false →
      allDigits ip_str = true →
      parseU32 ip_str = none →
      h.process_go line_num (line :: rest) = .error .invalidIpAsInteger ∧
        ProcError.has_line_context .invalidIpAsInteger = false) := by
  refine ⟨?cidr, ?addr, ?int⟩
  case cidr =>
    intro h line_num line rest ip_str toks hsplit hcont hnet
    rw [process_go_cons,
      processLine_bad_cidr h line_num line ip_str toks hsplit hcont hnet]
    dsimp only
    cases Heatmap.process_go h (line_num + 1) rest <;> rfl
  case addr =>
    intro h line_num line rest ip_str toks hsplit hcont hdig haddr
    rw [process_go_cons,
      processLine_bad_addr h line_num line ip_str toks hsplit hcont hdig haddr]
  case int =>
    intro h line_num line rest ip_str toks hsplit hcont hdig hu32
    refine ⟨?_, rfl⟩
    rw [process_go_cons,
      processLine_bad_integer h line_num line ip_str toks hsplit hcont hdig hu32]

/-- Witness for `parse_failure_policy`: the malformed range token
`10.0.0.0/99` on the first input line is skipped with warning `(1, token)`
and the following line is still processed. -/
theorem parse_failure_policy_witness :
    (Heatmap.new DomainType.Linear none none true 24 "magma"
        ValueMode.Raw).process_go 0 ["10.0.0.0/99"] =
      (match Heatmap.process_go (Heatmap.new DomainType.Linear none none true
          24 "magma" ValueMode.Raw) 1 [] with
        | .error e => .error e
        | .ok (h2, ws2) => .ok (h2, (1, "10.0.0.0/99") :: ws2)) :=
  parse_failure_policy.1 _ 0 "10.0.0.0/99" [] "10.0.0.0/99" [] (by decide)
    (by decide) (by decide)

/-- Counterexample to **C6** as stated: the all-digit token `4294967296`
(`2^32`, one past the largest address) fails to parse as a `u32`, the run
aborts, but the fatal error is the bare `"Invalid IP as integer"`: it
carries neither the 1-based line number nor the offending token. -/
theorem bare_integer_error_lacks_context :
    (Heatmap.new DomainType.Linear none none true 24 "magma"
        ValueMode.Raw).process_input_from_reader ["4294967296"] =
      .error ProcError.invalidIpAsInteger ∧
    ProcError.has_line_context ProcError.invalidIpAsInteger = false :=
  ⟨rfl, rfl⟩

/-! ## `src/wasm.rs` — the session entry point `generate_heatmap`

This is the constructor of a heatmap session from the raw configuration
surface; it performs all configuration validation, in source order, before
any input is processed.  The RGBA encoding of the final buffer
(`get_rgba_data`, the injected gradient) is outside this claim's path and the
model returns the processed heatmap.  (The source as given would not even
compile for the wasm target — it passes an extra `separator` argument that
`Heatmap::new` does not take; the model uses the `Heatmap::new` of
`src/lib.rs` and ignores the separator.) -/

/-- The inline curve-type match of `generate_heatmap` (`src/wasm.rs` lines
28–32; unlike `DomainType::from_str` it does not accept `"log"`). -/
def parse_curve_type (s : String) : Option DomainType :=
  match s.toLower with
  | "linear" => some DomainType.Linear
  | "logarithmic" => some DomainType.Logarithmic
  | _ => none

/-- The colour-scale lookup of `generate_heatmap` (`src/wasm.rs` lines
55–65); the gradient itself is an external capability, identified here by
its lower-cased name. -/
def parse_colour_scale (s : String) : Option String :=
  match s.toLower with
  | "magma" => some "magma"
  | "inferno" => some "inferno"
  | "plasma" => some "plasma"
  | "viridis" => some "viridis"
  | "cividis" => some "cividis"
  | "turbo" => some "turbo"
  | "warm" => some "warm"
  | "cool" => some "cool"
  | _ => none

/-- `ValueMode::from_str` (`src/lib.rs` lines 28–42). -/
def ValueMode.from_str (s : String) : Option ValueMode :=
  match s.toLower with
  | "categorical" => some ValueMode.Categorical
  | "raw" => some ValueMode.Raw
  | "scaled" => some ValueMode.Scaled
  | _ => none

/-- `generate_heatmap` (`src/wasm.rs` lines 16–95): validate the
configuration (curve, then `bits_per_pixel ∈ [8, 24]` and even, then colour
scale, then value mode), construct the session, then process the input. -/
def generate_heatmap (input_data curve_type : String)
    (min_value max_value : Option ℚ) (accumulate : Bool)
    (bits_per_pixel : Nat) (colour_scale value_mode : String) :
    Except String Heatmap :=
  match parse_curve_type curve_type with
  | none => .error ("Invalid curve type: " ++ curve_type ++
      ". Must be 'linear' or 'logarithmic'")
  | some domain_type =>
    if bits_per_pixel < 8 then
      .error ("bits_per_pixel must be at least 8 (got " ++
        toString bits_per_pixel ++ "). Each pixel represents 2^bits_per_pixel IPs.")
    else if 24 < bits_per_pixel then
      .error ("bits_per_pixel cannot exceed 24 (got " ++
        toString bits_per_pixel ++ ")")
    else if bits_per_pixel % 2 ≠ 0 then
      .error ("bits_per_pixel must be even (got " ++
        toString bits_per_pixel ++ ")")
    else
      match parse_colour_scale colour_scale with
      | none => .error ("Invalid colour scale: " ++ colour_scale ++
          ". Supported: magma, inferno, plasma, viridis, cividis, turbo, warm, cool")
      | some gradient =>
        match ValueMode.from_str value_mode with
        | none => .error ("Invalid value mode: " ++ value_mode ++
            ". Use 'categorical', 'raw', or 'scaled'")
        | some vm =>
          let heatmap := Heatmap.new domain_type min_value max_value
            accumulate bits_per_pixel gradient vm
          match heatmap.process_input_from_string input_data with
          | .error _ => .error "Failed to process input"
          | .ok (h2, _) => .ok h2

/-- **C7.** Constructing a heatmap session with a `bits_per_pixel` for which
`32 − bits_per_pixel` is odd or negative (or outside the configured bounds
`[8, 24]`) is rejected as a fatal configuration error, raised before any
input is processed: the same error is returned for every input string.
(For `8 ≤ bits_per_pixel ≤ 24`, `32 − bits_per_pixel` is odd exactly when
`bits_per_pixel` is odd, the condition the source tests; `bits_per_pixel`
values above 32 are subsumed by the upper bound.) -/
theorem invalid_granularity_rejected (curve_type : String)
    (min_value max_value : Option ℚ) (accumulate : Bool)
    (bits_per_pixel : Nat) (colour_scale value_mode : String)
    (hbad : bits_per_pixel % 2 = 1 ∨ bits_per_pixel < 8 ∨ 24 < bits_per_pixel) :
    ∃ msg : String, ∀ input_data : String,
      generate_heatmap input_data curve_type min_value max_value accumulate
        bits_per_pixel colour_scale value_mode = .error msg := by
  unfold generate_heatmap
  cases hpc : parse_curve_type curve_type with
  | none =>
    exact ⟨"Invalid curve type: " ++ curve_type ++
      ". Must be 'linear' or 'logarithmic'", fun _ => rfl⟩
  | some dt =>
    by_cases h8 : bits_per_pixel < 8
    · exact ⟨"bits_per_pixel must be at least 8 (got " ++
        toString bits_per_pixel ++ "). Each pixel represents 2^bits_per_pixel IPs.",
        fun input => by dsimp only; rw [if_pos h8]⟩
    · by_cases h24 : 24 < bits_per_pixel
      · exact ⟨"bits_per_pixel cannot exceed 24 (got " ++
          toString bits_per_pixel ++ ")",
          fun input => by dsimp only; rw [if_neg h8, if_pos h24]⟩
      · have hodd : bits_per_pixel % 2 ≠ 0 := by omega
        exact ⟨"bits_per_pixel must be even (got " ++
          toString bits_per_pixel ++ ")",
          fun input => by dsimp only; rw [if_neg h8, if_neg h24, if_pos hodd]⟩

/-- Witness for `invalid_granularity_rejected` at `bits_per_pixel = 7`
(odd and below the lower bound). -/
theorem invalid_granularity_rejected_witness :
    ∃ msg : String, ∀ input_data : String,
      generate_heatmap input_data "linear" none none true 7 "magma" "raw" =
        .error msg :=
  invalid_granularity_rejected "linear" none none true 7 "magma" "raw"
    (by norm_num)

end IpHeatmap
